import Mathlib

/-!
Shallow embedding of the board normalization, merge and card handler logic of
`src/app.py` (a single-board kanban tracker).

Modelling conventions:
* JSON values are modelled by `JVal` (numbers as `Int`; the claims do not
  involve fractional numbers).
* Python truthiness is `truthy`, `x or y` is `pyOr`, `str(x)` is `pyStr`
  (the rendering of lists/dicts follows Python's `repr` conventions; only
  its value on strings, numbers and booleans matters for the claims),
  `.strip()` is `pyStrip` (whitespace stripping on both ends).
* `str(uuid.uuid4())` is modelled by a deterministic supply `freshId n`
  threaded through the functions as a counter `n : Nat`; distinct counter
  values give distinct ids, and freshness with respect to ids already
  present in the input is an explicit hypothesis (`boardIdsOk`) where a
  theorem needs it, mirroring the (probabilistic) freshness of real UUIDs.
* Python exceptions (`AttributeError` from calling `.strip()`/`.lower()` on a
  non-string, `TypeError` from ordering comparisons, `IndexError`) are
  modelled by `Except String`.
* `_normalize_board` returns its input dict with the `columns` and `projects`
  entries replaced; any other keys pass through unchanged and are not
  mentioned by any claim, so the normalized result is modelled by the
  structured `Board` record holding exactly those two fields.
-/

namespace Perkan

/-- A JSON value as loaded by `json.load` / `request.get_json`. -/
inductive JVal where
  | null : JVal
  | bool (b : Bool) : JVal
  | num (n : Int) : JVal
  | str (s : String) : JVal
  | arr (elems : List JVal) : JVal
  | obj (entries : List (String × JVal)) : JVal

mutual

/-- Decidable equality of JSON values (Python `==` on loaded JSON). -/
def jvalDecEq : (a b : JVal) → Decidable (a = b)
  | .null, .null => isTrue rfl
  | .null, .bool _ => isFalse (fun h => JVal.noConfusion h)
  | .null, .num _ => isFalse (fun h => JVal.noConfusion h)
  | .null, .str _ => isFalse (fun h => JVal.noConfusion h)
  | .null, .arr _ => isFalse (fun h => JVal.noConfusion h)
  | .null, .obj _ => isFalse (fun h => JVal.noConfusion h)
  | .bool _, .null => isFalse (fun h => JVal.noConfusion h)
  | .bool a, .bool b =>
    match decEq a b with
    | isTrue h => isTrue (by rw [h])
    | isFalse h => isFalse (fun hh => h (JVal.bool.inj hh))
  | .bool _, .num _ => isFalse (fun h => JVal.noConfusion h)
  | .bool _, .str _ => isFalse (fun h => JVal.noConfusion h)
  | .bool _, .arr _ => isFalse (fun h => JVal.noConfusion h)
  | .bool _, .obj _ => isFalse (fun h => JVal.noConfusion h)
  | .num _, .null => isFalse (fun h => JVal.noConfusion h)
  | .num _, .bool _ => isFalse (fun h => JVal.noConfusion h)
  | .num a, .num b =>
    match decEq a b with
    | isTrue h => isTrue (by rw [h])
    | isFalse h => isFalse (fun hh => h (JVal.num.inj hh))
  | .num _, .str _ => isFalse (fun h => JVal.noConfusion h)
  | .num _, .arr _ => isFalse (fun h => JVal.noConfusion h)
  | .num _, .obj _ => isFalse (fun h => JVal.noConfusion h)
  | .str _, .null => isFalse (fun h => JVal.noConfusion h)
  | .str _, .bool _ => isFalse (fun h => JVal.noConfusion h)
  | .str _, .num _ => isFalse (fun h => JVal.noConfusion h)
  | .str a, .str b =>
    match decEq a b with
    | isTrue h => isTrue (by rw [h])
    | isFalse h => isFalse (fun hh => h (JVal.str.inj hh))
  | .str _, .arr _ => isFalse (fun h => JVal.noConfusion h)
  | .str _, .obj _ => isFalse (fun h => JVal.noConfusion h)
  | .arr _, .null => isFalse (fun h => JVal.noConfusion h)
  | .arr _, .bool _ => isFalse (fun h => JVal.noConfusion h)
  | .arr _, .num _ => isFalse (fun h => JVal.noConfusion h)
  | .arr _, .str _ => isFalse (fun h => JVal.noConfusion h)
  | .arr xs, .arr ys =>
    match jvalDecEqList xs ys with
    | isTrue h => isTrue (by rw [h])
    | isFalse h => isFalse (fun hh => h (JVal.arr.inj hh))
  | .arr _, .obj _ => isFalse (fun h => JVal.noConfusion h)
  | .obj _, .null => isFalse (fun h => JVal.noConfusion h)
  | .obj _, .bool _ => isFalse (fun h => JVal.noConfusion h)
  | .obj _, .num _ => isFalse (fun h => JVal.noConfusion h)
  | .obj _, .str _ => isFalse (fun h => JVal.noConfusion h)
  | .obj _, .arr _ => isFalse (fun h => JVal.noConfusion h)
  | .obj xs, .obj ys =>
    match jvalDecEqObj xs ys with
    | isTrue h => isTrue (by rw [h])
    | isFalse h => isFalse (fun hh => h (JVal.obj.inj hh))

/-- Decidable equality of JSON value lists. -/
def jvalDecEqList : (xs ys : List JVal) → Decidable (xs = ys)
  | [], [] => isTrue rfl
  | [], _ :: _ => isFalse (fun h => List.noConfusion h)
  | _ :: _, [] => isFalse (fun h => List.noConfusion h)
  | x :: xs, y :: ys =>
    match jvalDecEq x y, jvalDecEqList xs ys with
    | isTrue h1, isTrue h2 => isTrue (by rw [h1, h2])
    | isFalse h1, _ => isFalse (fun hh => h1 (List.cons.inj hh).1)
    | _, isFalse h2 => isFalse (fun hh => h2 (List.cons.inj hh).2)

/-- Decidable equality of JSON object entry lists. -/
def jvalDecEqObj : (xs ys : List (String × JVal)) → Decidable (xs = ys)
  | [], [] => isTrue rfl
  | [], _ :: _ => isFalse (fun h => List.noConfusion h)
  | _ :: _, [] => isFalse (fun h => List.noConfusion h)
  | (k, v) :: xs, (k2, v2) :: ys =>
    match decEq k k2, jvalDecEq v v2, jvalDecEqObj xs ys with
    | isTrue h1, isTrue h2, isTrue h3 => isTrue (by rw [h1, h2, h3])
    | isFalse h1, _, _ => isFalse (fun hh => h1 (congrArg (fun l => (l.headD (k, v)).1) hh))
    | _, isFalse h2, _ => isFalse (fun hh => h2 (congrArg (fun l => (l.headD (k, v)).2) hh))
    | _, _, isFalse h3 => isFalse (fun hh => h3 (List.cons.inj hh).2)

end

instance : DecidableEq JVal := jvalDecEq

/-- Python truthiness of a JSON value. -/
def truthy : JVal → Bool
  | .null => false
  | .bool b => b
  | .num n => n != 0
  | .str s => s != ""
  | .arr xs => !xs.isEmpty
  | .obj kvs => !kvs.isEmpty

/-- Python `x or y`. -/
def pyOr (a b : JVal) : JVal := if truthy a then a else b

/-- `d.get(k, default)` on a dict; on a non-dict the callers in the source
always guard with `isinstance(..., dict)` first. -/
def JVal.getD (v : JVal) (k : String) (d : JVal) : JVal :=
  match v with
  | .obj kvs =>
    match kvs.find? (fun kv => kv.1 == k) with
    | some kv => kv.2
    | none => d
  | _ => d

/-- `d.get(k)` on a dict (default `None`). -/
def JVal.get (v : JVal) (k : String) : JVal := v.getD k .null

/-- Whether a JSON value is a dict (`isinstance(x, dict)`). -/
def JVal.isObj : JVal → Bool
  | .obj _ => true
  | _ => false

/-- Decimal digit character. -/
def digitChar (d : Nat) : Char := Char.ofNat (48 + d)

/-- Decimal rendering of a natural number, fuel-based so that it reduces in
the kernel (`natStr n` always supplies enough fuel). -/
def natStrAux (fuel : Nat) (n : Nat) : String :=
  match fuel with
  | 0 => ""
  | fuel + 1 =>
    if n < 10 then String.mk [digitChar n]
    else natStrAux fuel (n / 10) ++ String.mk [digitChar (n % 10)]

/-- Decimal rendering of a natural number, as Python's `str`. -/
def natStr (n : Nat) : String := natStrAux (n + 1) n

/-- Decimal rendering of an integer, as Python's `str`. -/
def intStr : Int → String
  | .ofNat m => natStr m
  | .negSucc m => "-" ++ natStr (m + 1)

/-- A single-quote character, used by Python's `repr` of strings. -/
def sq : String := String.mk [Char.ofNat 39]

mutual

/-- Python `repr` of a JSON value (used when rendering containers). -/
def pyRepr : JVal → String
  | .null => "None"
  | .bool true => "True"
  | .bool false => "False"
  | .num n => intStr n
  | .str s => sq ++ s ++ sq
  | .arr xs => "[" ++ pyReprList xs ++ "]"
  | .obj kvs => "\x7b" ++ pyReprObj kvs ++ "\x7d"

/-- Comma-separated `repr` of list elements. -/
def pyReprList : List JVal → String
  | [] => ""
  | [x] => pyRepr x
  | x :: xs => pyRepr x ++ ", " ++ pyReprList xs

/-- Comma-separated `repr` of dict entries. -/
def pyReprObj : List (String × JVal) → String
  | [] => ""
  | [(k, v)] => sq ++ k ++ sq ++ ": " ++ pyRepr v
  | (k, v) :: kvs => sq ++ k ++ sq ++ ": " ++ pyRepr v ++ ", " ++ pyReprObj kvs

end

instance : Repr JVal := ⟨fun v _ => Std.Format.text (pyRepr v)⟩

/-- Python `str` of a JSON value. -/
def pyStr : JVal → String
  | .null => "None"
  | .bool true => "True"
  | .bool false => "False"
  | .num n => intStr n
  | .str s => s
  | .arr xs => "[" ++ pyReprList xs ++ "]"
  | .obj kvs => "\x7b" ++ pyReprObj kvs ++ "\x7d"

/-- Python `.strip()` on the character list of a string: drop whitespace from
both ends. -/
def stripChars (l : List Char) : List Char :=
  ((l.dropWhile Char.isWhitespace).reverse.dropWhile Char.isWhitespace).reverse

/-- Python `str.strip()`. -/
def pyStrip (s : String) : String := String.mk (stripChars s.data)

/-- Python `(v or '').strip()`: returns the stripped string, or raises
`AttributeError` when `v` is truthy but not a string. -/
def stripOrEmpty (v : JVal) : Except String String :=
  match pyOr v (.str "") with
  | .str s => .ok (pyStrip s)
  | _ => .error "AttributeError: strip on non-string"

/-- `DEFAULT_CARD_COLOR` from `src/app.py`. -/
def DEFAULT_CARD_COLOR : String := "#5b2e8a"

/-- The deterministic stand-in for `str(uuid.uuid4())`: the `n`-th generated
id. Distinct counters give distinct ids. -/
def freshId (n : Nat) : String := String.mk ("uuid-".data ++ List.replicate n 'x')

/-- A sanitized link `{'text': ..., 'url': ...}`. -/
structure Link where
  text : String
  url : String
deriving DecidableEq, Repr

/-- A card as stored in a board column. Sanitized cards have `.str` titles
and descriptions; cards built by `create_card`/`update_card` carry the raw
request values, hence the `JVal` fields. `color := none` models the absence
of the `'color'` key. -/
structure Card where
  id : String
  title : JVal
  description : JVal
  links : List Link
  project : Option String
  color : Option JVal
deriving DecidableEq, Repr

/-- A board column. -/
structure Column where
  id : JVal
  title : String
  color : JVal
  hidden : Bool
  cards : List Card
deriving DecidableEq, Repr

/-- A project (name and color). -/
structure Project where
  name : String
  color : JVal
deriving DecidableEq, Repr

/-- A normalized board: the `columns` and `projects` entries of the board
dict (other keys of the dict pass through `_normalize_board` unchanged and
are not modelled). -/
structure Board where
  columns : List Column
  projects : List Project
deriving DecidableEq, Repr

/-- `_clean_links`, inner loop over the elements of the raw list. -/
def cleanLinksList : List JVal → List Link
  | [] => []
  | item :: rest =>
    match item with
    | .obj _ =>
      let text := pyStrip (pyStr (pyOr (item.get "text") (.str "")))
      let url := pyStrip (pyStr (pyOr (item.get "url") (.str "")))
      if url = "" then cleanLinksList rest
      else { text := if text = "" then url else text, url := url } :: cleanLinksList rest
    | _ => cleanLinksList rest

/-- `_clean_links` from `src/app.py`: keep dict elements with a non-empty
trimmed url; `text` defaults to the url. -/
def clean_links (raw : JVal) : List Link :=
  match raw with
  | .arr items => cleanLinksList items
  | _ => []

/-- `_sanitize_card` from `src/app.py`. Returns `none` for non-dict input;
raises when the `project` field is truthy but not a string. The counter `n`
is advanced when an id had to be generated. -/
def sanitize_card (card : JVal) (n : Nat) : Except String (Option Card × Nat) :=
  match card with
  | .obj _ =>
    let idv := card.get "id"
    let (idStr, n1) := if truthy idv then (pyStr idv, n) else (freshId n, n + 1)
    let title0 := pyStrip (pyStr (pyOr (card.get "title") (.str "")))
    let title := if title0 = "" then "Untitled" else title0
    let descr := pyStr (pyOr (card.get "description") (.str ""))
    let links := clean_links (card.get "links")
    match stripOrEmpty (card.get "project") with
    | .error e => .error e
    | .ok projectName =>
      let proj : Option String := if projectName = "" then none else some projectName
      let colorv := card.get "color"
      let color : JVal := if truthy colorv then colorv else .str DEFAULT_CARD_COLOR
      .ok (some { id := idStr
                  title := .str title
                  description := .str descr
                  links := links
                  project := proj
                  color := some color }, n1)
  | _ => .ok (none, n)

/-- The card loop of `_normalize_board`: sanitize each card, regenerate ids
that collide with one already accepted in this column (`seen`). -/
def normalizeCards (cards : List JVal) (seen : List String) (n : Nat) :
    Except String (List Card × Nat) :=
  match cards with
  | [] => .ok ([], n)
  | c :: rest =>
    match sanitize_card c n with
    | .error e => .error e
    | .ok (none, n1) => normalizeCards rest seen n1
    | .ok (some card, n1) =>
      let (card2, n2) :=
        if card.id ∈ seen then ({ card with id := freshId n1 }, n1 + 1) else (card, n1)
      match normalizeCards rest (card2.id :: seen) n2 with
      | .error e => .error e
      | .ok (cs, n3) => .ok (card2 :: cs, n3)

/-- The `cards` payload of a raw column: the `cards` entry when it is a list,
otherwise the empty list. -/
def cardsOf (col : JVal) : List JVal :=
  match col.get "cards" with
  | .arr cs => cs
  | _ => []

/-- One iteration of the column loop of `_normalize_board`: `none` for a
dropped non-dict element, otherwise the coerced column
(`id`/`title`/`color`/`hidden` defaulted, cards sanitized). -/
def normalizeColumn (col : JVal) (n : Nat) : Except String (Option Column × Nat) :=
  match col with
  | .obj _ =>
    let (colId, n1) :=
      if truthy (col.get "id") then (col.get "id", n) else (JVal.str (freshId n), n + 1)
    let title0 := pyStrip (pyStr (pyOr (col.get "title") (.str "")))
    let title := if title0 = "" then "Untitled" else title0
    let color := pyOr (col.get "color") (.str "#9aa0a6")
    let hidden := truthy (col.get "hidden")
    match normalizeCards (cardsOf col) [] n1 with
    | .error e => .error e
    | .ok (cards, n2) =>
      .ok (some { id := colId
                  title := title
                  color := color
                  hidden := hidden
                  cards := cards }, n2)
  | _ => .ok (none, n)

/-- The column loop of `_normalize_board`. -/
def normalizeColumns (cols : List JVal) (n : Nat) : Except String (List Column × Nat) :=
  match cols with
  | [] => .ok ([], n)
  | col :: rest =>
    match normalizeColumn col n with
    | .error e => .error e
    | .ok (none, n1) => normalizeColumns rest n1
    | .ok (some c, n1) =>
      match normalizeColumns rest n1 with
      | .error e => .error e
      | .ok (more, n2) => .ok (c :: more, n2)

/-- One iteration of the project loop of `_normalize_board`: `none` when the
element is dropped (non-dict, empty trimmed name, or duplicate name in
`seen`). -/
def normalizeProject (p : JVal) (seen : List String) : Except String (Option Project) :=
  match p with
  | .obj _ =>
    match stripOrEmpty (p.get "name") with
    | .error e => .error e
    | .ok name =>
      if name = "" ∨ name ∈ seen then .ok none
      else .ok (some { name := name, color := pyOr (p.get "color") (.str DEFAULT_CARD_COLOR) })
  | _ => .ok none

/-- The project loop of `_normalize_board` (first occurrence of a name
wins). -/
def normalizeProjects (projs : List JVal) (seen : List String) :
    Except String (List Project) :=
  match projs with
  | [] => .ok []
  | p :: rest =>
    match normalizeProject p seen with
    | .error e => .error e
    | .ok none => normalizeProjects rest seen
    | .ok (some proj) =>
      match normalizeProjects rest (proj.name :: seen) with
      | .error e => .error e
      | .ok more => .ok (proj :: more)

/-- The raw `columns` list of a board value (empty when absent or not a
list; a non-dict board behaves as the empty dict). -/
def colsOf (v : JVal) : List JVal :=
  match v.get "columns" with
  | .arr xs => xs
  | _ => []

/-- The raw `projects` list of a board value. -/
def projsOf (v : JVal) : List JVal :=
  match v.get "projects" with
  | .arr xs => xs
  | _ => []

/-- `_normalize_board` from `src/app.py`. -/
def normalize_board (data : JVal) (n : Nat) : Except String (Board × Nat) :=
  match normalizeColumns (colsOf data) n with
  | .error e => .error e
  | .ok (columns, n1) =>
    match normalizeProjects (projsOf data) [] with
    | .error e => .error e
    | .ok projects => .ok ({ columns := columns, projects := projects }, n1)

/-- The dict built by `_clean_links` for a link. -/
def Link.toJVal (l : Link) : JVal := .obj [("text", .str l.text), ("url", .str l.url)]

/-- The dict a `Card` record stands for. The `project` and `color` keys are
present exactly when the corresponding fields are `some`, matching how the
source builds card dicts. -/
def Card.toJVal (c : Card) : JVal :=
  match c.project, c.color with
  | some p, some v =>
    .obj [("id", .str c.id), ("title", c.title), ("description", c.description),
          ("links", .arr (c.links.map Link.toJVal)), ("project", .str p), ("color", v)]
  | some p, none =>
    .obj [("id", .str c.id), ("title", c.title), ("description", c.description),
          ("links", .arr (c.links.map Link.toJVal)), ("project", .str p)]
  | none, some v =>
    .obj [("id", .str c.id), ("title", c.title), ("description", c.description),
          ("links", .arr (c.links.map Link.toJVal)), ("color", v)]
  | none, none =>
    .obj [("id", .str c.id), ("title", c.title), ("description", c.description),
          ("links", .arr (c.links.map Link.toJVal))]

/-- The dict a normalized `Column` record stands for. -/
def Column.toJVal (c : Column) : JVal :=
  .obj [("id", c.id), ("title", .str c.title), ("color", c.color),
        ("hidden", .bool c.hidden), ("cards", .arr (c.cards.map Card.toJVal))]

/-- The dict a normalized `Project` record stands for. -/
def Project.toJVal (p : Project) : JVal :=
  .obj [("name", .str p.name), ("color", p.color)]

/-- The dict a `Board` record stands for. -/
def Board.toJVal (b : Board) : JVal :=
  .obj [("columns", .arr (b.columns.map Column.toJVal)),
        ("projects", .arr (b.projects.map Project.toJVal))]

/-- The column `columns_lookup[cid]` aliases in `_merge_boards`: the dict
comprehension is last-wins, updates never change ids, and new columns are
appended at the end and entered into the lookup, so the lookup always maps
`cid` to the last column of the current list with that id. -/
def findLastCol : List Column → JVal → Option Column
  | [], _ => none
  | c :: rest, cid =>
    match findLastCol rest cid with
    | some c2 => some c2
    | none => if c.id = cid then some c else none

/-- Replace the last column with the given id (the in-place mutation of the
column aliased by `columns_lookup`). -/
def setLastCol : List Column → JVal → Column → List Column
  | [], _, _ => []
  | c :: rest, cid, newCol =>
    if cid ∈ rest.map Column.id then c :: setLastCol rest cid newCol
    else if c.id = cid then newCol :: rest
    else c :: setLastCol rest cid newCol

/-- The inner card loop of `_merge_boards`: re-sanitize each incoming card
and append it, regenerating ids that collide with `existing_ids`. -/
def mergeCardsInto (existingIds : List String) (cards : List Card) (n : Nat) :
    Except String (List Card × Nat) :=
  match cards with
  | [] => .ok ([], n)
  | card :: rest =>
    match sanitize_card (Card.toJVal card) n with
    | .error e => .error e
    | .ok (none, n1) => mergeCardsInto existingIds rest n1
    | .ok (some s, n1) =>
      let (s2, n2) := if s.id ∈ existingIds then ({ s with id := freshId n1 }, n1 + 1) else (s, n1)
      match mergeCardsInto (s2.id :: existingIds) rest n2 with
      | .error e => .error e
      | .ok (cs, n3) => .ok (s2 :: cs, n3)

/-- The column loop of `_merge_boards`: matched incoming columns overwrite
`title`/`color`/`hidden` of the aliased base column and append their cards;
unmatched ones are appended whole. -/
def mergeColumns (baseCols : List Column) (incCols : List Column) (n : Nat) :
    Except String (List Column × Nat) :=
  match incCols with
  | [] => .ok (baseCols, n)
  | inc :: rest =>
    match findLastCol baseCols inc.id with
    | some target =>
      match mergeCardsInto (target.cards.map Card.id) inc.cards n with
      | .error e => .error e
      | .ok (newCards, n1) =>
        let updated : Column :=
          { target with
            title := inc.title
            color := inc.color
            hidden := inc.hidden
            cards := target.cards ++ newCards }
        mergeColumns (setLastCol baseCols inc.id updated) rest n1
    | none => mergeColumns (baseCols ++ [inc]) rest n

/-- Replace the color of the last project with the given (non-empty) name:
the project aliased by `project_lookup[name]`. -/
def setLastProjColor : List Project → String → JVal → List Project
  | [], _, _ => []
  | p :: rest, name, c =>
    if name ∈ rest.map Project.name then p :: setLastProjColor rest name c
    else if p.name = name then { p with color := c } :: rest
    else p :: setLastProjColor rest name c

/-- The project loop of `_merge_boards`: overwrite the color of a matching
base project when the incoming color is truthy, append unmatched projects
with the incoming color or the default. -/
def mergeProjects (ps : List Project) (incs : List Project) : List Project :=
  match incs with
  | [] => ps
  | p :: rest =>
    if p.name = "" then mergeProjects ps rest
    else if p.name ∈ ps.map Project.name then
      mergeProjects (if truthy p.color then setLastProjColor ps p.name p.color else ps) rest
    else
      mergeProjects
        (ps ++ [{ name := p.name,
                  color := if truthy p.color then p.color else .str DEFAULT_CARD_COLOR }]) rest

/-- `_merge_boards` from `src/app.py`: normalize both inputs, merge columns
by id and projects by name, and re-normalize the result. -/
def merge_boards (existing incoming : JVal) (n : Nat) : Except String (Board × Nat) :=
  match normalize_board existing n with
  | .error e => .error e
  | .ok (base, n1) =>
    match normalize_board incoming n1 with
    | .error e => .error e
    | .ok (inc, n2) =>
      match mergeColumns base.columns inc.columns n2 with
      | .error e => .error e
      | .ok (cols, n3) =>
        let merged : Board := { columns := cols, projects := mergeProjects base.projects inc.projects }
        normalize_board (Board.toJVal merged) n3

/-- ASCII lowering of a character (sufficient for the hex color strings the
source compares; models Python `str.lower`). -/
def lowerChar (c : Char) : Char :=
  if 65 ≤ c.toNat ∧ c.toNat ≤ 90 then Char.ofNat (c.toNat + 32) else c

/-- Python `str.lower()` (ASCII). -/
def pyLower (s : String) : String := String.mk (s.data.map lowerChar)

/-- Lower-case hexadecimal digit character. -/
def hexDigit (d : Nat) : Char :=
  if d < 10 then Char.ofNat (48 + d) else Char.ofNat (87 + d)

/-- Six-digit zero-padded lower-case hex rendering of `x < 16^6`
(`f"\x7bx:06x\x7d"`). -/
def hex6 (x : Nat) : String :=
  String.mk [hexDigit (x / 1048576 % 16), hexDigit (x / 65536 % 16), hexDigit (x / 4096 % 16),
             hexDigit (x / 256 % 16), hexDigit (x / 16 % 16), hexDigit (x % 16)]

/-- A random color `f"#\x7brandom.randint(0, 0xFFFFFF):06x\x7d"`; the stream
value is reduced mod `2^24` to model `randint`'s range. -/
def hexColor (x : Nat) : String := "#" ++ hex6 (x % 16777216)

/-- The set comprehension of `_generate_unique_color`: lower-cased truthy
project colors; `.lower()` raises on a truthy non-string color. -/
def existingColors : List Project → Except String (List String)
  | [] => .ok []
  | p :: rest =>
    if truthy p.color then
      match p.color with
      | .str s =>
        match existingColors rest with
        | .error e => .error e
        | .ok cs => .ok (pyLower s :: cs)
      | _ => .error "AttributeError: lower on non-string"
    else existingColors rest

/-- The retry loop of `_generate_unique_color`: try stream positions `k`,
`k+1`, ... while the fuel lasts, then fall back to an unchecked color. -/
def genLoop (existing : List String) (r : Nat → Nat) (k : Nat) : Nat → String
  | 0 => hexColor (r k)
  | fuel + 1 =>
    let color := hexColor (r k)
    if pyLower color ∈ existing then genLoop existing r (k + 1) fuel else color

/-- `_generate_unique_color` from `src/app.py` (32 attempts), over a stream
`r` of `randint` results. -/
def generate_unique_color (board : Board) (r : Nat → Nat) : Except String String :=
  match existingColors board.projects with
  | .error e => .error e
  | .ok existing => .ok (genLoop existing r 0 32)

/-- Replace the first project with the given name (in-place mutation of the
project found by `next(...)` in `_ensure_project`). -/
def setFirstProj : List Project → String → Project → List Project
  | [], _, _ => []
  | p :: rest, name, newP =>
    if p.name = name then newP :: rest else p :: setFirstProj rest name newP

/-- `_ensure_project` from `src/app.py`: look up the project by name; give a
colorless existing project the default color; create a missing project with
a generated color. -/
def ensure_project (board : Board) (projectName : String) (r : Nat → Nat) :
    Except String (Board × Option Project) :=
  let pn := pyStrip projectName
  if pn = "" then .ok (board, none)
  else
    match board.projects.find? (fun p => p.name == pn) with
    | some existing =>
      if truthy existing.color then .ok (board, some existing)
      else
        let fixed : Project := { existing with color := .str DEFAULT_CARD_COLOR }
        .ok ({ board with projects := setFirstProj board.projects pn fixed }, some fixed)
    | none =>
      match generate_unique_color board r with
      | .error e => .error e
      | .ok color =>
        let proj : Project := { name := pn, color := .str color }
        .ok ({ board with projects := board.projects ++ [proj] }, some proj)

/-- `_find_project` from `src/app.py`. -/
def find_project (board : Board) (projectName : String) : Option Project :=
  if projectName = "" then none
  else board.projects.find? (fun p => p.name == projectName)

/-- Outcome of the `create_card` handler. `badRequest` is the 400 response,
`notFound` the 404 response (carrying the in-memory board, which is NOT
persisted: the handler returns before `_save_data`), `created` the 201
response together with the board that is persisted. -/
inductive CreateResult where
  | badRequest : CreateResult
  | notFound (inMemory : Board) : CreateResult
  | created (saved : Board) (card : Card) : CreateResult
deriving DecidableEq, Repr

/-- Append the card to the first column whose id equals `cid` (the lookup
loop at the end of `create_card`); `none` when no column matches. -/
def insertCardFirstMatch : List Column → JVal → Card → Option (List Column)
  | [], _, _ => none
  | col :: rest, cid, card =>
    if col.id = cid then some ({ col with cards := col.cards ++ [card] } :: rest)
    else
      match insertCardFirstMatch rest cid card with
      | some cols => some (col :: cols)
      | none => none

/-- `create_card` from `src/app.py` over a loaded board. `n` is the uuid
counter and `r` the random stream for `_generate_unique_color`. -/
def create_card (board : Board) (data : JVal) (n : Nat) (r : Nat → Nat) :
    Except String CreateResult :=
  match data with
  | .obj _ =>
    let title := data.get "title"
    let description := data.getD "description" (.str "")
    let columnId := data.getD "column" (.str "todo")
    let colorv := data.get "color"
    match stripOrEmpty (data.get "project") with
    | .error e => .error e
    | .ok projectName =>
      let links := clean_links (data.get "links")
      if !truthy title then .ok .badRequest
      else
        let card0 : Card :=
          { id := freshId n
            title := title
            description := description
            links := links
            project := none
            color := none }
        match (if projectName ≠ "" then ensure_project board projectName r
               else .ok (board, none)) with
        | .error e => .error e
        | .ok (b1, pd) =>
          let c1 := if projectName ≠ "" then { card0 with project := some projectName } else card0
          let c2 := match pd with
            | some p => if truthy p.color then { c1 with color := some p.color } else c1
            | none => c1
          let c3 := if truthy colorv ∧ pd = none then { c2 with color := some colorv } else c2
          let c4 := if c3.color = none then { c3 with color := some (.str DEFAULT_CARD_COLOR) }
                    else c3
          match insertCardFirstMatch b1.columns columnId c4 with
          | some cols => .ok (.created { b1 with columns := cols } c4)
          | none => .ok (.notFound b1)
  | _ => .error "AttributeError: get on non-dict"

/-- Outcome of the `update_card` handler: 404 for a missing card, 404 for a
missing explicit target column, or the 200 response with the saved board
and the updated card. -/
inductive UpdateResult where
  | cardNotFound : UpdateResult
  | columnNotFound : UpdateResult
  | updated (saved : Board) (card : Card) : UpdateResult
deriving DecidableEq, Repr

/-- The find-and-remove loop of `update_card`: the card with the given id,
its column's id, its index there, and the columns after deletion. -/
def findRemoveCard : List Column → String → Option (Card × JVal × Nat × List Column)
  | [], _ => none
  | col :: rest, cid =>
    match col.cards.findIdx? (fun c => c.id == cid) with
    | some i =>
      match col.cards[i]? with
      | some c => some (c, col.id, i, { col with cards := col.cards.eraseIdx i } :: rest)
      | none => none
    | none =>
      match findRemoveCard rest cid with
      | some (c, ocid, i, cols) => some (c, ocid, i, col :: cols)
      | none => none

/-- The field-update block of `update_card` (lines 378-404 of the source):
apply `title`/`description`/`color`, handle the `project` payload (ensure or
clear), apply `links`, then re-assert the project color. -/
def applyCardUpdates (card0 : Card) (b1 : Board) (titleV descrV colorV : JVal)
    (projectPayload : Option JVal) (linksV : JVal) (r : Nat → Nat) :
    Except String (Card × Board) :=
  let c1 := if titleV ≠ .null then { card0 with title := titleV } else card0
  let c2 := if descrV ≠ .null then { c1 with description := descrV } else c1
  let c3 := if colorV ≠ .null then { c2 with color := some colorV } else c2
  match (match projectPayload with
         | some pv =>
           match stripOrEmpty pv with
           | .error e => .error e
           | .ok np =>
             if np ≠ "" then
               match ensure_project b1 np r with
               | .error e => .error e
               | .ok (b2, pd) =>
                 let c4 := { c3 with project := some np }
                 let c5 := match pd with
                   | some p => if truthy p.color then { c4 with color := some p.color } else c4
                   | none => c4
                 .ok (c5, b2)
             else
               let c4 := { c3 with project := none }
               let c5 := if colorV = .null then { c4 with color := some (.str DEFAULT_CARD_COLOR) }
                         else c4
               .ok (c5, b1)
         | none => .ok (c3, b1) : Except String (Card × Board)) with
  | .error e => .error e
  | .ok (c5, b2) =>
    let c6 := if linksV ≠ .null then { c5 with links := clean_links linksV } else c5
    let projTruthy : Bool := match c6.project with
      | some p => p != ""
      | none => false
    let c7 :=
      if projTruthy then
        match find_project b2 (match c6.project with | some p => p | none => "") with
        | some pd => if truthy pd.color then { c6 with color := some pd.color } else c6
        | none => c6
      else if c6.color = none then { c6 with color := some (.str DEFAULT_CARD_COLOR) } else c6
    .ok (c7, b2)

/-- The placement block of `update_card` (lines 406-428): find the
destination column, honor the supplied position on an explicit move, or
reinsert at the original (clamped) index. Returns `none` for the
`target column not found` 404. -/
def placeCard (cols : List Column) (card : Card) (targetCol origColId : JVal)
    (origPos : Nat) (positionV : JVal) : Except String (Option (List Column)) :=
  let destId := pyOr targetCol origColId
  let destIdx? : Option Nat :=
    if truthy destId then cols.findIdx? (fun c => c.id == destId) else none
  if truthy targetCol ∧ destIdx? = none then .ok none
  else
    match (match destIdx? with
           | some j => some j
           | none => if cols.isEmpty then none else some 0) with
    | none => .error "IndexError: list index out of range"
    | some j =>
      match cols[j]? with
      | none => .error "IndexError: list index out of range"
      | some dc =>
        let newCards : Except String (List Card) :=
          if truthy targetCol then
            match positionV with
            | .null => .ok (dc.cards ++ [card])
            | .num k =>
              if k ≥ (dc.cards.length : Int) then .ok (dc.cards ++ [card])
              else .ok (dc.cards.insertIdx (max k 0).toNat card)
            | .bool b =>
              if (if b then (1 : Int) else 0) ≥ (dc.cards.length : Int) then .ok (dc.cards ++ [card])
              else .ok (dc.cards.insertIdx (max (if b then (1 : Int) else 0) 0).toNat card)
            | _ => .error "TypeError: order comparison on non-number"
          else
            .ok (dc.cards.insertIdx (min origPos dc.cards.length) card)
        match newCards with
        | .error e => .error e
        | .ok cs => .ok (some (cols.set j { dc with cards := cs }))

/-- `update_card` from `src/app.py` over a loaded board. -/
def update_card (board : Board) (cardId : String) (data : JVal) (r : Nat → Nat) :
    Except String UpdateResult :=
  match data with
  | .obj entries =>
    let targetCol := data.get "column"
    let positionV := data.get "position"
    let titleV := data.get "title"
    let descrV := data.get "description"
    let colorV := data.get "color"
    let linksV := data.get "links"
    let projectPayload : Option JVal :=
      match entries.find? (fun kv => kv.1 == "project") with
      | some kv => if kv.2 = .null then none else some kv.2
      | none => none
    match findRemoveCard board.columns cardId with
    | none => .ok .cardNotFound
    | some (card0, origColId, origPos, cols1) =>
      let b1 : Board := { board with columns := cols1 }
      match applyCardUpdates card0 b1 titleV descrV colorV projectPayload linksV r with
      | .error e => .error e
      | .ok (card1, b2) =>
        match placeCard b2.columns card1 targetCol origColId origPos positionV with
        | .error e => .error e
        | .ok none => .ok .columnNotFound
        | .ok (some cols2) => .ok (.updated { b2 with columns := cols2 } card1)
  | _ => .error "AttributeError: get on non-dict"

/-! ### Well-formedness of normalized values -/

/-- A stripped, non-empty string (as produced by the source's
`.strip() or default` patterns). -/
def wfStr (s : String) : Bool := pyStrip s == s && s != ""

/-- Links as produced by `_clean_links`. -/
def Link.wf (l : Link) : Bool := wfStr l.text && wfStr l.url

/-- Cards as produced by `_sanitize_card`. -/
def Card.wf (c : Card) : Bool :=
  c.id != "" &&
  (match c.title with | .str t => wfStr t | _ => false) &&
  (match c.description with | .str _ => true | _ => false) &&
  c.links.all Link.wf &&
  (match c.project with | some p => wfStr p | none => true) &&
  (match c.color with | some v => truthy v | none => false)

/-- Boolean pairwise distinctness. -/
def nodupIds : List String → Bool
  | [] => true
  | x :: xs => !xs.contains x && nodupIds xs

/-- Columns as produced by `_normalize_board`. -/
def Column.wf (c : Column) : Bool :=
  truthy c.id &&
  wfStr c.title &&
  truthy c.color &&
  c.cards.all Card.wf &&
  nodupIds (c.cards.map Card.id)

/-- Projects as produced by `_normalize_board`. -/
def Project.wf (p : Project) : Bool := wfStr p.name && truthy p.color

/-- Boards as produced by `_normalize_board`: all parts well-formed and
project names distinct. (Column ids need not be distinct: the normalizer
never deduplicates them.) -/
def Board.wf (b : Board) : Bool :=
  b.columns.all Column.wf &&
  b.projects.all Project.wf &&
  nodupIds (b.projects.map Project.name)

/-- `idOk c`: the id supplied by a raw card value, if any, does not look
like a generated id. This is the (probabilistically true) assumption that
`uuid.uuid4()` never collides with ids present in the input. -/
def uuidTagged (s : String) : Bool := s.data.take 5 == "uuid-".data

/-- A raw card value whose supplied id cannot collide with generated ids. -/
def idOk (c : JVal) : Bool :=
  if truthy (c.get "id") then !uuidTagged (pyStr (c.get "id")) else true

/-- All card ids supplied anywhere in a raw board value avoid the generated
id range. -/
def boardIdsOk (v : JVal) : Bool :=
  (colsOf v).all (fun col => (cardsOf col).all idOk)

/-- `SeenOk n ids`: no id in `ids` equals a generated id with counter `≥ n`;
the invariant that makes regenerated ids genuinely fresh. -/
def SeenOk (n : Nat) (ids : List String) : Prop :=
  ∀ s ∈ ids, ∀ m, n ≤ m → s ≠ freshId m

/-! ### String-level lemmas -/

/-- Strip from the back only. -/
def backStrip (l : List Char) : List Char :=
  (l.reverse.dropWhile Char.isWhitespace).reverse

/-- The incoming projects whose names are new relative to `ps`. -/
def newProjects (ps incs : List Project) : List Project :=
  incs.filter (fun x => decide (x.name ∉ ps.map Project.name))

/-- A small raw board: one column with two cards sharing the id `"a"`, one
project without a color. -/
def sampleRaw : JVal :=
  .obj [("columns", .arr [.obj [("id", .str "c1"),
          ("cards", .arr [.obj [("id", .str "a")], .obj [("id", .str "a")]])]]),
        ("projects", .arr [.obj [("name", .str "P")]])]

/-- The normalization of `sampleRaw` (the second card's id is regenerated). -/
def sampleBoard : Board :=
  { columns := [{ id := .str "c1"
                  title := "Untitled"
                  color := .str "#9aa0a6"
                  hidden := false
                  cards := [{ id := "a"
                              title := .str "Untitled"
                              description := .str ""
                              links := []
                              project := none
                              color := some (.str "#5b2e8a") },
                            { id := "uuid-"
                              title := .str "Untitled"
                              description := .str ""
                              links := []
                              project := none
                              color := some (.str "#5b2e8a") }] }]
    projects := [{ name := "P", color := .str "#5b2e8a" }] }

/-- The raw existing board for the C6 witness. -/
def mergeRawE : JVal :=
  .obj [("columns", .arr [.obj [("id", .str "x"),
          ("cards", .arr [.obj [("id", .str "a")]])]])]

/-- The raw incoming board for the C6 witness. -/
def mergeRawI : JVal :=
  .obj [("columns", .arr [.obj [("id", .str "x"), ("title", .str "NEW"),
          ("cards", .arr [.obj [("id", .str "a")], .obj [("id", .str "b")]])],
        .obj [("id", .str "y")]])]

/-- A sanitized card with the given id, all other fields defaulted. -/
def plainCard (i : String) : Card :=
  { id := i
    title := .str "Untitled"
    description := .str ""
    links := []
    project := none
    color := some (.str "#5b2e8a") }

/-- Normalization of `mergeRawE`. -/
def mergeBase : Board :=
  { columns := [{ id := .str "x"
                  title := "Untitled"
                  color := .str "#9aa0a6"
                  hidden := false
                  cards := [plainCard "a"] }]
    projects := [] }

/-- Normalization of `mergeRawI`. -/
def mergeInc : Board :=
  { columns := [{ id := .str "x"
                  title := "NEW"
                  color := .str "#9aa0a6"
                  hidden := false
                  cards := [plainCard "a", plainCard "b"] },
                { id := .str "y"
                  title := "Untitled"
                  color := .str "#9aa0a6"
                  hidden := false
                  cards := [] }]
    projects := [] }

/-- The merge of `mergeRawE` and `mergeRawI`: the shared column `x` keeps
its card and receives the incoming cards (the colliding id `a`
regenerated), and column `y` is appended. -/
def mergeOut : Board :=
  { columns := [{ id := .str "x"
                  title := "NEW"
                  color := .str "#9aa0a6"
                  hidden := false
                  cards := [plainCard "a", plainCard "uuid-", plainCard "b"] },
                { id := .str "y"
                  title := "Untitled"
                  color := .str "#9aa0a6"
                  hidden := false
                  cards := [] }]
    projects := [] }

/-- The loaded board for the C7 witness: one empty column, no projects. -/
def c7Board : Board :=
  { columns := [{ id := .str "todo"
                  title := "Todo"
                  color := .str "#9aa0a6"
                  hidden := false
                  cards := [] }]
    projects := [] }

/-- The C7 witness request: a new project name and an explicit card color
that the handler overrides. -/
def c7Data : JVal :=
  .obj [("title", .str "Fix bug"), ("project", .str "Backend"), ("color", .str "#111111")]

/-- The random stream for the C7 witness: every randint yields 255. -/
def c7R : Nat → Nat := fun _ => 255

/-- The card created for the C7 witness: its color is the generated project
color `#0000ff`, not the supplied `#111111`. -/
def c7Card : Card :=
  { id := freshId 0
    title := .str "Fix bug"
    description := .str ""
    links := []
    project := some "Backend"
    color := some (.str "#0000ff") }

/-- The board saved by the C7 witness request. -/
def c7Saved : Board :=
  { columns := [{ id := .str "todo"
                  title := "Todo"
                  color := .str "#9aa0a6"
                  hidden := false
                  cards := [c7Card] }]
    projects := [{ name := "Backend", color := .str "#0000ff" }] }

/-- The stored card for the C8 witness: references project `P` with that
project's blue color. -/
def c8Card0 : Card :=
  { id := "a"
    title := .str "T"
    description := .str ""
    links := []
    project := some "P"
    color := some (.str "#0000ff") }

/-- The loaded board for the C8 witness. -/
def c8Board : Board :=
  { columns := [{ id := .str "todo"
                  title := "Todo"
                  color := .str "#9aa0a6"
                  hidden := false
                  cards := [c8Card0] }]
    projects := [{ name := "P", color := .str "#0000ff" }] }

/-- The card after the C8 witness update: project cleared, color reset to
the default purple. -/
def c8CardOut : Card :=
  { id := "a"
    title := .str "T"
    description := .str ""
    links := []
    project := none
    color := some (.str "#5b2e8a") }

/-- The board saved by the C8 witness update. -/
def c8Saved : Board :=
  { columns := [{ id := .str "todo"
                  title := "Todo"
                  color := .str "#9aa0a6"
                  hidden := false
                  cards := [c8CardOut] }]
    projects := [{ name := "P", color := .str "#0000ff" }] }

/-- The card-placement rule as the spec words it (section 4.3, "Card
move"): with an explicitly specified target column an explicit numeric
position inserts at that index clamped to [0, length] and an omitted
position appends to the end; with no explicit target the card is
reinserted at its original index (clamped) in its original column. `none`
where the spec's rule says nothing (a position of another type). Stated
from the spec, to be compared against `placeCard`, the placement block
embedded from the source. -/
def placeSpecCards (cards : List Card) (card : Card) (explicitTarget : Bool)
    (origPos : Nat) (positionV : JVal) : Option (List Card) :=
  if explicitTarget then
    match positionV with
    | .null => some (cards ++ [card])
    | .num k => some (cards.insertIdx (min (max k 0).toNat cards.length) card)
    | _ => none
  else some (cards.insertIdx (min origPos cards.length) card)

/-- The destination column for the C9 witness, holding two cards. -/
def c9Col : Column :=
  { id := .str "todo"
    title := "Todo"
    color := .str "#9aa0a6"
    hidden := false
    cards := [plainCard "x", plainCard "y"] }

theorem dropWhile_self_idem (p : Char → Bool) (l : List Char) :
    (l.dropWhile p).dropWhile p = l.dropWhile p := by
  induction l with
  | nil => rfl
  | cons h t ih =>
    by_cases hp : p h
    · simpa [List.dropWhile_cons, hp] using ih
    · simp [List.dropWhile_cons, hp]

theorem dropWhile_head_cases (p : Char → Bool) (l : List Char) :
    l.dropWhile p = [] ∨ ∃ h t, l.dropWhile p = h :: t ∧ p h = false := by
  induction l with
  | nil => exact Or.inl rfl
  | cons h t ih =>
    by_cases hp : p h
    · simpa [List.dropWhile_cons, hp] using ih
    · exact Or.inr ⟨h, t, by simp [List.dropWhile_cons, hp], by simpa using hp⟩

theorem backStrip_append (l : List Char) :
    ∃ t, l = backStrip l ++ t := by
  refine ⟨(l.reverse.takeWhile Char.isWhitespace).reverse, ?_⟩
  have h := List.takeWhile_append_dropWhile (p := Char.isWhitespace) (l := l.reverse)
  calc l = l.reverse.reverse := by rw [List.reverse_reverse]
    _ = (List.takeWhile Char.isWhitespace l.reverse ++
          List.dropWhile Char.isWhitespace l.reverse).reverse := by rw [h]
    _ = backStrip l ++ (l.reverse.takeWhile Char.isWhitespace).reverse := by
          rw [List.reverse_append]; rfl

theorem backStrip_idem (l : List Char) : backStrip (backStrip l) = backStrip l := by
  unfold backStrip
  rw [List.reverse_reverse, dropWhile_self_idem]

theorem stripChars_eq_backStrip_front (l : List Char) :
    stripChars l = backStrip (l.dropWhile Char.isWhitespace) := rfl

theorem stripChars_idem (l : List Char) : stripChars (stripChars l) = stripChars l := by
  rw [stripChars_eq_backStrip_front, stripChars_eq_backStrip_front]
  set m := l.dropWhile Char.isWhitespace with hm
  have hfront : (backStrip m).dropWhile Char.isWhitespace = backStrip m := by
    rcases dropWhile_head_cases Char.isWhitespace l with hnil | ⟨h, t, hcons, hph⟩
    · rw [← hm] at hnil
      rw [hnil]
      rfl
    · rw [← hm] at hcons
      rcases backStrip_append m with ⟨t2, ht2⟩
      rcases hb : backStrip m with _ | ⟨h2, u⟩
      · rfl
      · have : m = h2 :: (u ++ t2) := by rw [ht2, hb]; rfl
        have hh2 : h2 = h := by
          rw [this] at hcons
          exact (List.cons.inj hcons).1
        rw [List.dropWhile_cons, hh2, hph]
        simp
  rw [hfront, backStrip_idem]

theorem pyStrip_idem (s : String) : pyStrip (pyStrip s) = pyStrip s := by
  unfold pyStrip
  exact String.ext (stripChars_idem s.data)

theorem wfStr_pyStrip (s : String) (h : pyStrip s ≠ "") : wfStr (pyStrip s) = true := by
  unfold wfStr
  rw [Bool.and_eq_true, beq_iff_eq, pyStrip_idem]
  exact ⟨rfl, by simpa using h⟩

theorem string_data_append (a b : String) : (a ++ b).data = a.data ++ b.data := rfl

theorem append_ne_empty_right (a b : String) (h : b ≠ "") : a ++ b ≠ "" := by
  intro hc
  apply h
  have hd := congrArg String.data hc
  rw [string_data_append] at hd
  rcases List.append_eq_nil.mp hd with ⟨_, h2⟩
  exact String.ext h2

theorem mk_single_ne_empty (c : Char) : String.mk [c] ≠ "" := by
  intro h
  simpa using congrArg String.data h

theorem natStrAux_ne_empty (fuel n : Nat) (h : 0 < fuel) : natStrAux fuel n ≠ "" := by
  match fuel with
  | f + 1 =>
    unfold natStrAux
    by_cases h10 : n < 10
    · simpa [h10] using mk_single_ne_empty (digitChar n)
    · simpa [h10] using append_ne_empty_right _ _ (mk_single_ne_empty (digitChar (n % 10)))

theorem natStr_ne_empty (n : Nat) : natStr n ≠ "" :=
  natStrAux_ne_empty (n + 1) n (Nat.succ_pos n)

theorem intStr_ne_empty (n : Int) : intStr n ≠ "" := by
  cases n with
  | ofNat m => exact natStr_ne_empty m
  | negSucc m => exact append_ne_empty_right _ _ (natStr_ne_empty (m + 1))

theorem truthy_pyStr_ne_empty (v : JVal) (h : truthy v = true) : pyStr v ≠ "" := by
  cases v with
  | null => simp [truthy] at h
  | bool b =>
    cases b
    · simp [truthy] at h
    · simp [pyStr]
  | num n => exact intStr_ne_empty n
  | str s => simpa [truthy] using h
  | arr xs => exact append_ne_empty_right _ _ (by simp)
  | obj kvs => exact append_ne_empty_right _ _ (by simp)

/-! ### Generated-id lemmas -/

theorem freshId_ne_empty (n : Nat) : freshId n ≠ "" := by
  intro h
  have := congrArg String.data h
  simp [freshId] at this

theorem truthy_str_freshId (n : Nat) : truthy (.str (freshId n)) = true := by
  simp [truthy]
  exact freshId_ne_empty n

theorem freshId_inj {a b : Nat} (h : freshId a = freshId b) : a = b := by
  unfold freshId at h
  have h1 := congrArg String.data h
  have h2 := List.append_cancel_left (show "uuid-".data ++ List.replicate a 'x'
    = "uuid-".data ++ List.replicate b 'x' from h1)
  have h3 := congrArg List.length h2
  simpa using h3

theorem uuidTagged_freshId (n : Nat) : uuidTagged (freshId n) = true := by
  unfold uuidTagged freshId
  have h5 : ("uuid-".data).length = 5 := rfl
  rw [show (String.mk ("uuid-".data ++ List.replicate n 'x')).data
        = "uuid-".data ++ List.replicate n 'x' from rfl, ← h5, List.take_left]
  simp

theorem not_tagged_ne_freshId {s : String} (h : uuidTagged s = false) (m : Nat) :
    s ≠ freshId m := by
  intro hc
  rw [hc, uuidTagged_freshId] at h
  cases h

/-! ### SeenOk lemmas -/

theorem seenOk_nil (n : Nat) : SeenOk n [] := by
  intro s hs
  cases hs

theorem seenOk_mono {n n' : Nat} {ids : List String} (h : SeenOk n ids) (hle : n ≤ n') :
    SeenOk n' ids := by
  intro s hs m hm
  exact h s hs m (Nat.le_trans hle hm)

theorem seenOk_cons_untagged {n : Nat} {ids : List String} {s : String}
    (hs : uuidTagged s = false) (h : SeenOk n ids) : SeenOk n (s :: ids) := by
  intro x hx m hm
  rcases List.mem_cons.mp hx with rfl | hx2
  · exact not_tagged_ne_freshId hs m
  · exact h x hx2 m hm

theorem seenOk_cons_fresh {n : Nat} {ids : List String} {k : Nat}
    (hk : k < n) (h : SeenOk n ids) : SeenOk n (freshId k :: ids) := by
  intro x hx m hm
  rcases List.mem_cons.mp hx with rfl | hx2
  · intro hc
    have := freshId_inj hc
    omega
  · exact h x hx2 m hm

/-! ### Getter evaluation on the dicts of structured values -/

theorem pyOr_str_empty (s : String) : pyStr (pyOr (.str s) (.str "")) = s := by
  by_cases h : s = "" <;> simp [pyOr, truthy, pyStr, h]

theorem stripOrEmpty_str (s : String) : stripOrEmpty (.str s) = .ok (pyStrip s) := by
  by_cases h : s = "" <;> simp [stripOrEmpty, pyOr, truthy, h]

theorem stripOrEmpty_null : stripOrEmpty .null = .ok "" := rfl

theorem card_get_id (c : Card) : (Card.toJVal c).get "id" = .str c.id := by
  rcases c with ⟨i, t, d, l, pr, co⟩
  cases pr <;> cases co <;> simp [Card.toJVal, JVal.get, JVal.getD, List.find?]

theorem card_get_title (c : Card) : (Card.toJVal c).get "title" = c.title := by
  rcases c with ⟨i, t, d, l, pr, co⟩
  cases pr <;> cases co <;> simp [Card.toJVal, JVal.get, JVal.getD, List.find?]

theorem card_get_description (c : Card) :
    (Card.toJVal c).get "description" = c.description := by
  rcases c with ⟨i, t, d, l, pr, co⟩
  cases pr <;> cases co <;> simp [Card.toJVal, JVal.get, JVal.getD, List.find?]

theorem card_get_links (c : Card) :
    (Card.toJVal c).get "links" = .arr (c.links.map Link.toJVal) := by
  rcases c with ⟨i, t, d, l, pr, co⟩
  cases pr <;> cases co <;> simp [Card.toJVal, JVal.get, JVal.getD, List.find?]

theorem card_get_project (c : Card) :
    (Card.toJVal c).get "project" =
      (match c.project with | some p => .str p | none => .null) := by
  rcases c with ⟨i, t, d, l, pr, co⟩
  cases pr <;> cases co <;> simp [Card.toJVal, JVal.get, JVal.getD, List.find?]

theorem card_get_color (c : Card) :
    (Card.toJVal c).get "color" =
      (match c.color with | some v => v | none => .null) := by
  rcases c with ⟨i, t, d, l, pr, co⟩
  cases pr <;> cases co <;> simp [Card.toJVal, JVal.get, JVal.getD, List.find?]

theorem card_toJVal_isObj (c : Card) : ∃ kvs, Card.toJVal c = .obj kvs := by
  rcases c with ⟨i, t, d, l, pr, co⟩
  cases pr <;> cases co <;> exact ⟨_, rfl⟩

theorem column_get (c : Column) :
    (Column.toJVal c).get "id" = c.id ∧
    (Column.toJVal c).get "title" = .str c.title ∧
    (Column.toJVal c).get "color" = c.color ∧
    (Column.toJVal c).get "hidden" = .bool c.hidden ∧
    (Column.toJVal c).get "cards" = .arr (c.cards.map Card.toJVal) := by
  refine ⟨?_, ?_, ?_, ?_, ?_⟩ <;> simp [Column.toJVal, JVal.get, JVal.getD, List.find?]

theorem project_get (p : Project) :
    (Project.toJVal p).get "name" = .str p.name ∧
    (Project.toJVal p).get "color" = p.color := by
  constructor <;> simp [Project.toJVal, JVal.get, JVal.getD, List.find?]

theorem board_colsOf (b : Board) : colsOf (Board.toJVal b) = b.columns.map Column.toJVal := by
  simp [colsOf, Board.toJVal, JVal.get, JVal.getD, List.find?]

theorem board_projsOf (b : Board) : projsOf (Board.toJVal b) = b.projects.map Project.toJVal := by
  simp [projsOf, Board.toJVal, JVal.get, JVal.getD, List.find?]

theorem nodupIds_iff (l : List String) : nodupIds l = true ↔ l.Nodup := by
  induction l with
  | nil => simp [nodupIds]
  | cons x xs ih =>
    simp [nodupIds, ih, List.contains, List.elem_iff]

/-! ### Re-normalization is the identity on well-formed values -/

theorem cleanLinksList_roundtrip (links : List Link) (h : links.all Link.wf = true) :
    cleanLinksList (links.map Link.toJVal) = links := by
  induction links with
  | nil => rfl
  | cons l rest ih =>
    rw [List.all_cons, Bool.and_eq_true] at h
    obtain ⟨hl, hrest⟩ := h
    unfold Link.wf wfStr at hl
    simp only [Bool.and_eq_true, beq_iff_eq, bne_iff_ne, ne_eq] at hl
    obtain ⟨⟨ht1, ht2⟩, hu1, hu2⟩ := hl
    show cleanLinksList (Link.toJVal l :: rest.map Link.toJVal) = l :: rest
    unfold cleanLinksList
    simp only [Link.toJVal, JVal.get, JVal.getD, List.find?, String.reduceBEq, pyOr_str_empty,
      ht1, hu1]
    rw [if_neg hu2, if_neg ht2, ih hrest]

theorem pyOr_str_of_ne {s : String} (h : s ≠ "") (y : JVal) : pyOr (.str s) y = .str s := by
  simp [pyOr, truthy, h]

theorem pyStr_str (s : String) : pyStr (.str s) = s := rfl

theorem truthy_str (s : String) : truthy (.str s) = (s != "") := rfl

theorem sanitize_card_roundtrip (c : Card) (h : Card.wf c = true) (n : Nat) :
    sanitize_card (Card.toJVal c) n = .ok (some c, n) := by
  obtain ⟨i, t, d, l, pr, co⟩ := c
  unfold Card.wf at h
  simp only [Bool.and_eq_true] at h
  obtain ⟨⟨⟨⟨⟨hi, hts⟩, hds⟩, hlw⟩, hpw⟩, hv⟩ := h
  rcases t with _ | _ | _ | ts | _ | _ <;> simp only at hts <;> try exact Bool.noConfusion hts
  rcases d with _ | _ | _ | ds | _ | _ <;> simp only at hds <;> try exact Bool.noConfusion hds
  rcases co with _ | v
  · exact Bool.noConfusion hv
  simp only at hpw hv
  rw [bne_iff_ne] at hi
  unfold wfStr at hts
  rw [Bool.and_eq_true, beq_iff_eq, bne_iff_ne] at hts
  obtain ⟨hts1, hts2⟩ := hts
  have hlinks2 : cleanLinksList (l.map Link.toJVal) = l := cleanLinksList_roundtrip l hlw
  rcases pr with _ | p
  · simp [Card.toJVal, sanitize_card, JVal.get, JVal.getD, List.find?, clean_links, pyStr_str,
      truthy_str, hi, hts2, hts1, pyOr_str_of_ne hts2, pyOr_str_empty, hlinks2, hv,
      stripOrEmpty_null]
  · unfold wfStr at hpw
    rw [Bool.and_eq_true, beq_iff_eq, bne_iff_ne] at hpw
    obtain ⟨hp1, hp2⟩ := hpw
    simp [Card.toJVal, sanitize_card, JVal.get, JVal.getD, List.find?, clean_links, pyStr_str,
      truthy_str, hi, hts2, hts1, hp1, hp2, pyOr_str_of_ne hts2, pyOr_str_empty, hlinks2, hv,
      stripOrEmpty_str]

theorem pyOr_of_truthy {a : JVal} (h : truthy a = true) (b : JVal) : pyOr a b = a := by
  simp [pyOr, h]

theorem truthy_bool (b : Bool) : truthy (.bool b) = b := rfl

theorem normalizeCards_roundtrip (cards : List Card) (seen : List String) (n : Nat)
    (hwf : cards.all Card.wf = true) (hnd : (cards.map Card.id).Nodup)
    (hdisj : ∀ c ∈ cards, c.id ∉ seen) :
    normalizeCards (cards.map Card.toJVal) seen n = .ok (cards, n) := by
  induction cards generalizing seen with
  | nil => rfl
  | cons c rest ih =>
    rw [List.all_cons, Bool.and_eq_true] at hwf
    obtain ⟨hc, hrest⟩ := hwf
    rw [List.map_cons, List.nodup_cons] at hnd
    obtain ⟨hnotin, hnd2⟩ := hnd
    have hns : c.id ∉ seen := hdisj c (List.mem_cons_self c rest)
    have hdisj2 : ∀ x ∈ rest, x.id ∉ c.id :: seen := by
      intro x hx
      rw [List.mem_cons]
      rintro (heq | hmem)
      · exact hnotin (heq ▸ List.mem_map_of_mem Card.id hx)
      · exact hdisj x (List.mem_cons_of_mem c hx) hmem
    show normalizeCards (Card.toJVal c :: rest.map Card.toJVal) seen n = .ok (c :: rest, n)
    unfold normalizeCards
    rw [sanitize_card_roundtrip c hc n]
    simp only [hns, if_false, ite_false, if_neg hns]
    rw [ih (c.id :: seen) hrest hnd2 hdisj2]

theorem normalizeProject_roundtrip (p : Project) (hwf : Project.wf p = true)
    (seen : List String) (hns : p.name ∉ seen) :
    normalizeProject (Project.toJVal p) seen = .ok (some p) := by
  unfold Project.wf wfStr at hwf
  simp only [Bool.and_eq_true, beq_iff_eq, bne_iff_ne, ne_eq] at hwf
  obtain ⟨⟨hn1, hn2⟩, hcol⟩ := hwf
  unfold normalizeProject
  simp only [show Project.toJVal p
      = JVal.obj [("name", .str p.name), ("color", p.color)] from rfl,
    JVal.get, JVal.getD, List.find?, String.reduceBEq, stripOrEmpty_str, hn1,
    pyOr_of_truthy hcol]
  rw [if_neg (by simp [hn2, hns])]

theorem normalizeProjects_roundtrip (ps : List Project) (seen : List String)
    (hwf : ps.all Project.wf = true) (hnd : (ps.map Project.name).Nodup)
    (hdisj : ∀ p ∈ ps, p.name ∉ seen) :
    normalizeProjects (ps.map Project.toJVal) seen = .ok ps := by
  induction ps generalizing seen with
  | nil => rfl
  | cons p rest ih =>
    rw [List.all_cons, Bool.and_eq_true] at hwf
    obtain ⟨hp, hrest⟩ := hwf
    rw [List.map_cons, List.nodup_cons] at hnd
    obtain ⟨hnotin, hnd2⟩ := hnd
    have hns : p.name ∉ seen := hdisj p (List.mem_cons_self p rest)
    have hdisj2 : ∀ x ∈ rest, x.name ∉ p.name :: seen := by
      intro x hx
      rw [List.mem_cons]
      rintro (heq | hmem)
      · exact hnotin (heq ▸ List.mem_map_of_mem Project.name hx)
      · exact hdisj x (List.mem_cons_of_mem p hx) hmem
    show normalizeProjects (Project.toJVal p :: rest.map Project.toJVal) seen = .ok (p :: rest)
    unfold normalizeProjects
    rw [normalizeProject_roundtrip p hp seen hns]
    simp only [ih (p.name :: seen) hrest hnd2 hdisj2]

theorem normalizeColumn_roundtrip (c : Column) (hwf : Column.wf c = true) (n : Nat) :
    normalizeColumn (Column.toJVal c) n = .ok (some c, n) := by
  unfold Column.wf at hwf
  simp only [Bool.and_eq_true] at hwf
  obtain ⟨⟨⟨⟨hid, htitle⟩, hcol⟩, hcards⟩, hnd⟩ := hwf
  unfold wfStr at htitle
  simp only [Bool.and_eq_true, beq_iff_eq, bne_iff_ne, ne_eq] at htitle
  obtain ⟨ht1, ht2⟩ := htitle
  unfold normalizeColumn
  simp only [show Column.toJVal c
      = JVal.obj [("id", c.id), ("title", .str c.title), ("color", c.color),
          ("hidden", .bool c.hidden), ("cards", .arr (c.cards.map Card.toJVal))] from rfl,
    JVal.get, JVal.getD, List.find?, String.reduceBEq, cardsOf,
    hid, if_true, pyOr_str_of_ne ht2, pyStr_str, ht1, pyOr_of_truthy hcol, truthy_bool]
  rw [if_neg ht2]
  rw [normalizeCards_roundtrip c.cards [] n hcards ((nodupIds_iff _).mp hnd)
    (by intro x hx hmem; cases hmem)]

theorem normalizeColumns_roundtrip (cols : List Column) (n : Nat)
    (hwf : cols.all Column.wf = true) :
    normalizeColumns (cols.map Column.toJVal) n = .ok (cols, n) := by
  induction cols with
  | nil => rfl
  | cons c rest ih =>
    rw [List.all_cons, Bool.and_eq_true] at hwf
    obtain ⟨hc, hrest⟩ := hwf
    show normalizeColumns (Column.toJVal c :: rest.map Column.toJVal) n = .ok (c :: rest, n)
    unfold normalizeColumns
    rw [normalizeColumn_roundtrip c hc n]
    simp only [ih hrest]

/-- Re-normalizing a well-formed board is the identity and consumes no ids. -/
theorem normalize_board_roundtrip (b : Board) (hwf : Board.wf b = true) (n : Nat) :
    normalize_board (Board.toJVal b) n = .ok (b, n) := by
  unfold Board.wf at hwf
  simp only [Bool.and_eq_true] at hwf
  obtain ⟨⟨hcols, hprojs⟩, hnames⟩ := hwf
  unfold normalize_board
  rw [board_colsOf, board_projsOf]
  rw [normalizeColumns_roundtrip b.columns n hcols]
  rw [normalizeProjects_roundtrip b.projects [] hprojs ((nodupIds_iff _).mp hnames)
    (by intro x hx hmem; cases hmem)]

/-! ### Normalization produces well-formed values -/

theorem wfStr_untitled : wfStr "Untitled" = true := by decide

theorem truthy_default_color : truthy (.str DEFAULT_CARD_COLOR) = true := by decide

theorem truthy_gray : truthy (.str "#9aa0a6") = true := by decide

theorem truthy_pyOr {a b : JVal} (hb : truthy b = true) : truthy (pyOr a b) = true := by
  unfold pyOr
  by_cases ha : truthy a = true
  · rw [if_pos ha]; exact ha
  · rw [if_neg ha]; exact hb

theorem wfStr_strip_or_default (x : String) (d : String) (hd : wfStr d = true) :
    wfStr (if pyStrip x = "" then d else pyStrip x) = true := by
  by_cases hx : pyStrip x = ""
  · rw [if_pos hx]; exact hd
  · rw [if_neg hx]; exact wfStr_pyStrip x hx

theorem cleanLinksList_wf (items : List JVal) : (cleanLinksList items).all Link.wf = true := by
  induction items with
  | nil => rfl
  | cons item rest ih =>
    unfold cleanLinksList
    rcases item with _ | _ | _ | _ | _ | kvs <;> try exact ih
    by_cases hurl : pyStrip (pyStr (pyOr ((JVal.obj kvs).get "url") (.str ""))) = ""
    · rw [if_pos hurl]; exact ih
    · rw [if_neg hurl]
      rw [List.all_cons, Bool.and_eq_true]
      refine ⟨?_, ih⟩
      unfold Link.wf
      rw [Bool.and_eq_true]
      constructor
      · by_cases htext : pyStrip (pyStr (pyOr ((JVal.obj kvs).get "text") (.str ""))) = ""
        · rw [if_pos htext]; exact wfStr_pyStrip _ hurl
        · rw [if_neg htext]; exact wfStr_pyStrip _ htext
      · exact wfStr_pyStrip _ hurl

theorem clean_links_wf (raw : JVal) : (clean_links raw).all Link.wf = true := by
  unfold clean_links
  rcases raw with _ | _ | _ | _ | items | _ <;> first | rfl | exact cleanLinksList_wf items

theorem sanitize_card_none (c : JVal) (n : Nat) (card? : Option Card) (n1 : Nat)
    (h : sanitize_card c n = .ok (card?, n1)) (hno : card? = none) :
    n1 = n ∧ JVal.isObj c = false := by
  subst hno
  rcases c with _ | _ | _ | _ | _ | kvs <;>
    simp only [sanitize_card] at h <;> try (cases h; exact ⟨rfl, rfl⟩)
  rcases hse : stripOrEmpty ((JVal.obj kvs).get "project") with e | pn <;> rw [hse] at h <;>
    simp at h

theorem sanitize_card_some (c : JVal) (n : Nat) (card : Card) (n1 : Nat)
    (h : sanitize_card c n = .ok (some card, n1)) :
    Card.wf card = true ∧
    ((card.id = pyStr (c.get "id") ∧ truthy (c.get "id") = true ∧ n1 = n) ∨
     (card.id = freshId n ∧ n1 = n + 1)) ∧
    JVal.isObj c = true := by
  rcases c with _ | _ | _ | _ | _ | kvs <;> simp only [sanitize_card] at h <;> try simp at h
  rcases hse : stripOrEmpty ((JVal.obj kvs).get "project") with e | pn <;> rw [hse] at h
  · simp at h
  have hobj : JVal.isObj (JVal.obj kvs) = true := rfl
  have hstrip_pn : pyStrip pn = pn := by
    rcases hor : pyOr ((JVal.obj kvs).get "project") (.str "") with _ | _ | _ | s | _ | _ <;>
      rw [stripOrEmpty, hor] at hse <;> try exact Except.noConfusion hse
    rw [Except.ok.injEq] at hse
    rw [← hse, pyStrip_idem]
  have hproj_wf : (match (if pn = "" then (none : Option String) else some pn) with
      | some p => wfStr p | none => true) = true := by
    by_cases hpn : pn = ""
    · simp [hpn]
    · simp only [hpn, if_false]
      unfold wfStr
      simp [hstrip_pn, hpn]
  have hcol_wf : truthy (if truthy ((JVal.obj kvs).get "color") then (JVal.obj kvs).get "color"
      else .str DEFAULT_CARD_COLOR) = true := by
    by_cases hcv : truthy ((JVal.obj kvs).get "color") = true
    · simp [hcv]
    · simp [hcv, truthy_default_color]
  by_cases hid : truthy ((JVal.obj kvs).get "id") = true
  · simp only [hid, if_true, Except.ok.injEq, Prod.mk.injEq, Option.some.injEq] at h
    obtain ⟨hcard, hn⟩ := h
    subst hcard
    refine ⟨?_, Or.inl ⟨rfl, hid, hn.symm⟩, hobj⟩
    unfold Card.wf
    simp only [Bool.and_eq_true]
    exact ⟨⟨⟨⟨⟨by simpa using truthy_pyStr_ne_empty _ hid,
      wfStr_strip_or_default _ _ wfStr_untitled⟩, by trivial⟩,
      clean_links_wf _⟩, hproj_wf⟩, hcol_wf⟩
  · rw [Bool.not_eq_true] at hid
    have hft : (false = true) = False := by simp
    simp only [hid, hft, if_false, Except.ok.injEq, Prod.mk.injEq, Option.some.injEq] at h
    obtain ⟨hcard, hn⟩ := h
    subst hcard
    refine ⟨?_, Or.inr ⟨rfl, hn.symm⟩, hobj⟩
    unfold Card.wf
    simp only [Bool.and_eq_true]
    exact ⟨⟨⟨⟨⟨by simpa using freshId_ne_empty n,
      wfStr_strip_or_default _ _ wfStr_untitled⟩, by trivial⟩,
      clean_links_wf _⟩, hproj_wf⟩, hcol_wf⟩

theorem seenOk_sub {n : Nat} {l1 l2 : List String} (h : SeenOk n l1)
    (hsub : ∀ s ∈ l2, s ∈ l1) : SeenOk n l2 := by
  intro s hs m hm
  exact h s (hsub s hs) m hm

theorem card_wf_set_id (card : Card) (h : Card.wf card = true) (k : Nat) :
    Card.wf { card with id := freshId k } = true := by
  unfold Card.wf at h ⊢
  simp only [Bool.and_eq_true] at h ⊢
  obtain ⟨⟨⟨⟨⟨-, h2⟩, h3⟩, h4⟩, h5⟩, h6⟩ := h
  exact ⟨⟨⟨⟨⟨by simpa using freshId_ne_empty k, h2⟩, h3⟩, h4⟩, h5⟩, h6⟩

/-- Master invariant for the card loop of `_normalize_board`: when the
supplied ids of the raw cards avoid the generated-id range and the already
seen ids avoid generated ids with counter `≥ n`, the loop succeeds with
well-formed cards, one output card per dict input, pairwise distinct ids
that also avoid `seen`, and the invariant is maintained. -/
theorem normalizeCards_ok (cards : List JVal) (seen : List String) (n : Nat)
    (out : List Card) (n' : Nat)
    (hids : cards.all idOk = true)
    (hseen : SeenOk n seen)
    (h : normalizeCards cards seen n = .ok (out, n')) :
    n ≤ n' ∧
    out.all Card.wf = true ∧
    out.length = (cards.filter JVal.isObj).length ∧
    (out.map Card.id).Nodup ∧
    (∀ s ∈ out.map Card.id, s ∉ seen) ∧
    SeenOk n' (out.map Card.id ++ seen) := by
  induction cards generalizing seen n out n' with
  | nil =>
    rw [show normalizeCards [] seen n = .ok ([], n) from rfl, Except.ok.injEq] at h
    have h1 : ([] : List Card) = out := congrArg Prod.fst h
    have h2 : n = n' := congrArg Prod.snd h
    cases h1
    cases h2
    refine ⟨Nat.le_refl n, rfl, rfl, List.nodup_nil, ?_, hseen⟩
    intro s hs
    simp at hs
  | cons c rest ih =>
    rw [List.all_cons, Bool.and_eq_true] at hids
    obtain ⟨hc, hrest⟩ := hids
    unfold normalizeCards at h
    rcases hs : sanitize_card c n with e | ⟨card?, n1⟩
    · rw [hs] at h; exact Except.noConfusion h
    rw [hs] at h
    rcases card? with _ | card
    · obtain ⟨hn1, hcobj⟩ := sanitize_card_none c n none n1 hs rfl
      subst hn1
      obtain ⟨g1, g2, g3, g4, g5, g6⟩ := ih _ _ _ _ hrest hseen h
      refine ⟨g1, g2, ?_, g4, g5, g6⟩
      rw [List.filter_cons, hcobj]
      exact g3
    · obtain ⟨hwf, hprov, hcobj⟩ := sanitize_card_some c n card n1 hs
      have hn_n1 : n ≤ n1 := by
        rcases hprov with ⟨-, -, rfl⟩ | ⟨-, rfl⟩
        · exact Nat.le_refl _
        · exact Nat.le_succ _
      by_cases hcoll : card.id ∈ seen
      · -- id collides with a seen id: it is regenerated as `freshId n1`
        simp only [hcoll, if_true] at h
        rcases hrec : normalizeCards rest (freshId n1 :: seen) (n1 + 1) with e | ⟨cs, n3⟩ <;>
          rw [hrec] at h
        · exact Except.noConfusion h
        rw [Except.ok.injEq] at h
        have h1 : { card with id := freshId n1 } :: cs = out := congrArg Prod.fst h
        have h2 : n3 = n' := congrArg Prod.snd h
        cases h1
        cases h2
        have hseen2 : SeenOk (n1 + 1) (freshId n1 :: seen) :=
          seenOk_cons_fresh (Nat.lt_succ_self n1)
            (seenOk_mono hseen (Nat.le_succ_of_le hn_n1))
        obtain ⟨g1, g2, g3, g4, g5, g6⟩ := ih _ _ _ _ hrest hseen2 hrec
        refine ⟨by omega, ?_, ?_, ?_, ?_, ?_⟩
        · rw [List.all_cons, Bool.and_eq_true]
          exact ⟨card_wf_set_id card hwf n1, g2⟩
        · rw [List.filter_cons, hcobj]
          simpa using g3
        · rw [List.map_cons, List.nodup_cons]
          refine ⟨?_, g4⟩
          intro hmem
          exact g5 _ hmem (List.mem_cons_self _ _)
        · intro s hsmem
          rw [List.map_cons, List.mem_cons] at hsmem
          rcases hsmem with rfl | hsmem
          · intro habs
            exact hseen _ habs n1 hn_n1 rfl
          · intro habs
            exact g5 s hsmem (List.mem_cons_of_mem _ habs)
        · refine seenOk_sub g6 ?_
          intro s hsmem
          simp only [List.map_cons, List.cons_append, List.mem_cons, List.mem_append] at hsmem ⊢
          tauto
      · -- no collision: the card is kept as is
        simp only [hcoll, if_false, ite_false, if_neg hcoll] at h
        rcases hrec : normalizeCards rest (card.id :: seen) n1 with e | ⟨cs, n3⟩ <;>
          rw [hrec] at h
        · exact Except.noConfusion h
        rw [Except.ok.injEq] at h
        have h1 : card :: cs = out := congrArg Prod.fst h
        have h2 : n3 = n' := congrArg Prod.snd h
        cases h1
        cases h2
        have hseen2 : SeenOk n1 (card.id :: seen) := by
          rcases hprov with ⟨hpy, htr, rfl⟩ | ⟨hfr, rfl⟩
          · refine seenOk_cons_untagged ?_ hseen
            unfold idOk at hc
            rw [htr, if_pos rfl] at hc
            rw [hpy]
            simpa using hc
          · rw [hfr]
            exact seenOk_cons_fresh (Nat.lt_succ_self n) (seenOk_mono hseen (Nat.le_succ n))
        obtain ⟨g1, g2, g3, g4, g5, g6⟩ := ih _ _ _ _ hrest hseen2 hrec
        refine ⟨by omega, ?_, ?_, ?_, ?_, ?_⟩
        · rw [List.all_cons, Bool.and_eq_true]
          exact ⟨hwf, g2⟩
        · rw [List.filter_cons, hcobj]
          simpa using g3
        · rw [List.map_cons, List.nodup_cons]
          refine ⟨?_, g4⟩
          intro hmem
          exact g5 _ hmem (List.mem_cons_self _ _)
        · intro s hsmem
          rw [List.map_cons, List.mem_cons] at hsmem
          rcases hsmem with rfl | hsmem
          · exact hcoll
          · intro habs
            exact g5 s hsmem (List.mem_cons_of_mem _ habs)
        · refine seenOk_sub g6 ?_
          intro s hsmem
          simp only [List.map_cons, List.cons_append, List.mem_cons, List.mem_append] at hsmem ⊢
          tauto

theorem stripOrEmpty_ok_strip {v : JVal} {s : String} (h : stripOrEmpty v = .ok s) :
    pyStrip s = s := by
  rcases hor : pyOr v (.str "") with _ | _ | _ | s2 | _ | _ <;>
    rw [stripOrEmpty, hor] at h <;> try exact Except.noConfusion h
  rw [Except.ok.injEq] at h
  rw [← h, pyStrip_idem]

/-- One column-loop iteration returning `none` leaves the counter unchanged
and means the element was not a dict. -/
theorem normalizeColumn_none (col : JVal) (n : Nat) (c? : Option Column) (n1 : Nat)
    (h : normalizeColumn col n = .ok (c?, n1)) (hno : c? = none) :
    n1 = n ∧ JVal.isObj col = false := by
  subst hno
  rcases col with _ | b | m | s | xs | kvs <;> simp only [normalizeColumn] at h <;>
    try (cases h; exact ⟨rfl, rfl⟩)
  by_cases hid : truthy ((JVal.obj kvs).get "id") = true
  · simp only [hid, if_true] at h
    rcases hcards : normalizeCards (cardsOf (JVal.obj kvs)) [] n with e | ⟨cards, n2⟩ <;>
      rw [hcards] at h
    · exact Except.noConfusion h
    · simp at h
  · rw [Bool.not_eq_true] at hid
    have hft : (false = true) = False := by simp
    simp only [hid, hft, if_false] at h
    rcases hcards : normalizeCards (cardsOf (JVal.obj kvs)) [] (n + 1) with e | ⟨cards, n2⟩ <;>
      rw [hcards] at h
    · exact Except.noConfusion h
    · simp at h

/-- Master invariant for one column-loop iteration. -/
theorem normalizeColumn_some (col : JVal) (n : Nat) (c : Column) (n1 : Nat)
    (hids : (cardsOf col).all idOk = true)
    (h : normalizeColumn col n = .ok (some c, n1)) :
    n ≤ n1 ∧ Column.wf c = true ∧
    c.cards.length = ((cardsOf col).filter JVal.isObj).length ∧
    SeenOk n1 (c.cards.map Card.id) ∧ JVal.isObj col = true := by
  rcases col with _ | b | m | s | xs | kvs <;> simp only [normalizeColumn] at h <;>
    try exact Option.noConfusion (congrArg Prod.fst (Except.ok.inj h))
  have main : ∀ (m : Nat) (hm : n ≤ m) (cid : JVal) (hcid : truthy cid = true),
      (match normalizeCards (cardsOf (JVal.obj kvs)) [] m with
        | Except.error e => Except.error e
        | Except.ok (cards, n2) =>
          Except.ok (some { id := cid
                            title := if pyStrip (pyStr (pyOr ((JVal.obj kvs).get "title")
                                        (.str ""))) = ""
                                     then "Untitled"
                                     else pyStrip (pyStr (pyOr ((JVal.obj kvs).get "title")
                                        (.str "")))
                            color := pyOr ((JVal.obj kvs).get "color") (.str "#9aa0a6")
                            hidden := truthy ((JVal.obj kvs).get "hidden")
                            cards := cards }, n2)) = Except.ok (some c, n1) →
      n ≤ n1 ∧ Column.wf c = true ∧
      c.cards.length = ((cardsOf (JVal.obj kvs)).filter JVal.isObj).length ∧
      SeenOk n1 (c.cards.map Card.id) ∧ JVal.isObj (JVal.obj kvs) = true := by
    intro m hm cid hcid hmatch
    rcases hcards : normalizeCards (cardsOf (JVal.obj kvs)) [] m with e | ⟨cards, n2⟩ <;>
      rw [hcards] at hmatch
    · exact Except.noConfusion hmatch
    rw [Except.ok.injEq] at hmatch
    have h1 := congrArg Prod.fst hmatch
    have h2 : n2 = n1 := congrArg Prod.snd hmatch
    simp only [Option.some.injEq] at h1
    cases h1
    cases h2
    obtain ⟨c1, c2, c3, c4, c5, c6⟩ := normalizeCards_ok _ _ _ _ _ hids (seenOk_nil m) hcards
    refine ⟨by omega, ?_, c3, ?_, rfl⟩
    · unfold Column.wf
      simp only [Bool.and_eq_true]
      exact ⟨⟨⟨⟨hcid, wfStr_strip_or_default _ _ wfStr_untitled⟩,
        truthy_pyOr truthy_gray⟩, c2⟩, (nodupIds_iff _).mpr c4⟩
    · refine seenOk_sub c6 ?_
      intro s hsmem
      simpa using hsmem
  by_cases hid : truthy ((JVal.obj kvs).get "id") = true
  · rw [if_pos hid] at h
    exact main n (Nat.le_refl n) _ hid h
  · rw [Bool.not_eq_true] at hid
    rw [hid, if_neg Bool.false_ne_true] at h
    exact main (n + 1) (Nat.le_succ n) _ (truthy_str_freshId n) h

/-- Master invariant for the column loop of `_normalize_board`. -/
theorem normalizeColumns_ok (cols : List JVal) (n : Nat) (out : List Column) (n' : Nat)
    (hids : cols.all (fun col => (cardsOf col).all idOk) = true)
    (h : normalizeColumns cols n = .ok (out, n')) :
    n ≤ n' ∧ out.all Column.wf = true ∧
    List.Forall₂ (fun (oc : Column) (ic : JVal) =>
      oc.cards.length = ((cardsOf ic).filter JVal.isObj).length) out (cols.filter JVal.isObj) ∧
    (∀ col ∈ out, SeenOk n' (col.cards.map Card.id)) := by
  induction cols generalizing n out n' with
  | nil =>
    rw [show normalizeColumns [] n = .ok ([], n) from rfl, Except.ok.injEq] at h
    have h1 : ([] : List Column) = out := congrArg Prod.fst h
    have h2 : n = n' := congrArg Prod.snd h
    cases h1
    cases h2
    exact ⟨Nat.le_refl n, rfl, List.Forall₂.nil, by intro col hcol; cases hcol⟩
  | cons col rest ih =>
    rw [List.all_cons, Bool.and_eq_true] at hids
    obtain ⟨hcol, hrest⟩ := hids
    unfold normalizeColumns at h
    rcases hc : normalizeColumn col n with e | ⟨c?, n1⟩ <;> rw [hc] at h
    · exact Except.noConfusion h
    rcases c? with _ | c
    · obtain ⟨hn1, hcobj⟩ := normalizeColumn_none col n none n1 hc rfl
      subst hn1
      obtain ⟨g1, g2, g3, g4⟩ := ih _ _ _ hrest h
      refine ⟨g1, g2, ?_, g4⟩
      rw [List.filter_cons, hcobj]
      simpa using g3
    · obtain ⟨c1, c2, c3, c4, c5⟩ := normalizeColumn_some col n c n1 hcol hc
      replace h : (match normalizeColumns rest n1 with
        | Except.error e => Except.error e
        | Except.ok (more, n2) => Except.ok (c :: more, n2)) = Except.ok (out, n') := h
      rcases hrec : normalizeColumns rest n1 with e | ⟨more, n3⟩ <;> rw [hrec] at h
      · exact Except.noConfusion h
      rw [Except.ok.injEq] at h
      have h1 : c :: more = out := congrArg Prod.fst h
      have h2 : n3 = n' := congrArg Prod.snd h
      cases h1
      cases h2
      obtain ⟨g1, g2, g3, g4⟩ := ih _ _ _ hrest hrec
      refine ⟨by omega, ?_, ?_, ?_⟩
      · rw [List.all_cons, Bool.and_eq_true]
        exact ⟨c2, g2⟩
      · rw [List.filter_cons, c5]
        simp only [if_true]
        exact List.Forall₂.cons c3 g3
      · intro colx hcolx
        rcases List.mem_cons.mp hcolx with rfl | hmem
        · exact seenOk_mono c4 g1
        · exact g4 _ hmem

/-- One project-loop iteration yielding a project: it is well-formed and its
name is new. -/
theorem normalizeProject_some (p : JVal) (seen : List String) (proj : Project)
    (h : normalizeProject p seen = .ok (some proj)) :
    Project.wf proj = true ∧ proj.name ∉ seen := by
  rcases p with _ | b | m | s | xs | kvs <;> simp only [normalizeProject] at h <;>
    try exact Option.noConfusion (Except.ok.inj h)
  rcases hse : stripOrEmpty ((JVal.obj kvs).get "name") with e | name <;> rw [hse] at h
  · exact Except.noConfusion h
  replace h : (if name = "" ∨ name ∈ seen then (Except.ok none : Except String (Option Project))
      else Except.ok (some { name := name
                             color := pyOr ((JVal.obj kvs).get "color")
                               (JVal.str DEFAULT_CARD_COLOR) }))
      = Except.ok (some proj) := h
  by_cases hskip : name = "" ∨ name ∈ seen
  · rw [if_pos hskip] at h
    exact Option.noConfusion (Except.ok.inj h)
  · rw [if_neg hskip] at h
    push_neg at hskip
    obtain ⟨hne, hnotin⟩ := hskip
    rw [Except.ok.injEq, Option.some.injEq] at h
    cases h
    refine ⟨?_, hnotin⟩
    unfold Project.wf
    rw [Bool.and_eq_true]
    constructor
    · unfold wfStr
      simp [stripOrEmpty_ok_strip hse, hne]
    · exact truthy_pyOr truthy_default_color

/-- Master invariant for the project loop of `_normalize_board`. -/
theorem normalizeProjects_ok (projs : List JVal) (seen : List String) (out : List Project)
    (h : normalizeProjects projs seen = .ok out) :
    out.all Project.wf = true ∧ (out.map Project.name).Nodup ∧
    (∀ s ∈ out.map Project.name, s ∉ seen) := by
  induction projs generalizing seen out with
  | nil =>
    rw [show normalizeProjects [] seen = .ok [] from rfl, Except.ok.injEq] at h
    cases h
    exact ⟨rfl, List.nodup_nil, by intro s hs; cases hs⟩
  | cons p rest ih =>
    unfold normalizeProjects at h
    rcases hp : normalizeProject p seen with e | p? <;> rw [hp] at h
    · exact Except.noConfusion h
    rcases p? with _ | proj
    · exact ih _ _ h
    · obtain ⟨hwf, hnotin⟩ := normalizeProject_some p seen proj hp
      replace h : (match normalizeProjects rest (proj.name :: seen) with
        | Except.error e => Except.error e
        | Except.ok more => Except.ok (proj :: more)) = Except.ok out := h
      rcases hrec : normalizeProjects rest (proj.name :: seen) with e | more <;> rw [hrec] at h
      · exact Except.noConfusion h
      rw [Except.ok.injEq] at h
      cases h
      obtain ⟨g1, g2, g3⟩ := ih _ _ hrec
      refine ⟨?_, ?_, ?_⟩
      · rw [List.all_cons, Bool.and_eq_true]
        exact ⟨hwf, g1⟩
      · rw [List.map_cons, List.nodup_cons]
        refine ⟨?_, g2⟩
        intro hmem
        exact g3 _ hmem (List.mem_cons_self _ _)
      · intro s hsmem
        rw [List.map_cons, List.mem_cons] at hsmem
        rcases hsmem with rfl | hsmem
        · exact hnotin
        · intro habs
          exact g3 s hsmem (List.mem_cons_of_mem _ habs)

/-- Master invariant for `_normalize_board`: on success the result is a
well-formed board, each output column corresponds to a dict element of the
raw `columns` list with one card per dict element of its raw `cards` list,
and (under `boardIdsOk`) all card ids avoid generated ids with counter
`≥ n'`. -/
theorem normalize_board_ok (v : JVal) (n : Nat) (b : Board) (n' : Nat)
    (hids : boardIdsOk v = true)
    (h : normalize_board v n = .ok (b, n')) :
    n ≤ n' ∧ Board.wf b = true ∧
    List.Forall₂ (fun (oc : Column) (ic : JVal) =>
      oc.cards.length = ((cardsOf ic).filter JVal.isObj).length) b.columns
      ((colsOf v).filter JVal.isObj) ∧
    (∀ col ∈ b.columns, SeenOk n' (col.cards.map Card.id)) := by
  unfold normalize_board at h
  rcases hcols : normalizeColumns (colsOf v) n with e | ⟨columns, n1⟩ <;> rw [hcols] at h
  · exact Except.noConfusion h
  rcases hprojs : normalizeProjects (projsOf v) [] with e | projects <;> rw [hprojs] at h
  · exact Except.noConfusion h
  rw [Except.ok.injEq] at h
  have h1 : ({ columns := columns, projects := projects } : Board) = b := congrArg Prod.fst h
  have h2 : n1 = n' := congrArg Prod.snd h
  cases h1
  cases h2
  obtain ⟨g1, g2, g3, g4⟩ := normalizeColumns_ok _ _ _ _ hids hcols
  obtain ⟨p1, p2, p3⟩ := normalizeProjects_ok _ _ _ hprojs
  refine ⟨g1, ?_, g3, g4⟩
  unfold Board.wf
  simp only [Bool.and_eq_true]
  exact ⟨⟨g2, p1⟩, (nodupIds_iff _).mpr p2⟩

/-! ### Merge lemmas for projects -/

theorem setLastProj_names (ps : List Project) (nm : String) (c : JVal) :
    (setLastProjColor ps nm c).map Project.name = ps.map Project.name := by
  induction ps with
  | nil => rfl
  | cons p rest ih =>
    unfold setLastProjColor
    by_cases h1 : nm ∈ rest.map Project.name
    · rw [if_pos h1]
      simp [ih]
    · rw [if_neg h1]
      by_cases h2 : p.name = nm
      · rw [if_pos h2]
        simp [h2]
      · rw [if_neg h2]
        simp [ih]

theorem setLastProj_all_wf (ps : List Project) (nm : String) (c : JVal)
    (hwf : ps.all Project.wf = true) (hc : truthy c = true) :
    (setLastProjColor ps nm c).all Project.wf = true := by
  induction ps with
  | nil => rfl
  | cons p rest ih =>
    rw [List.all_cons, Bool.and_eq_true] at hwf
    obtain ⟨hp, hrest⟩ := hwf
    unfold setLastProjColor
    by_cases h1 : nm ∈ rest.map Project.name
    · rw [if_pos h1, List.all_cons, Bool.and_eq_true]
      exact ⟨hp, ih hrest⟩
    · rw [if_neg h1]
      by_cases h2 : p.name = nm
      · rw [if_pos h2, List.all_cons, Bool.and_eq_true]
        refine ⟨?_, hrest⟩
        unfold Project.wf at hp ⊢
        rw [Bool.and_eq_true] at hp ⊢
        exact ⟨hp.1, hc⟩
      · rw [if_neg h2, List.all_cons, Bool.and_eq_true]
        exact ⟨hp, ih hrest⟩

theorem setLastProj_mem_other (ps : List Project) (nm : String) (c : JVal) (x : Project)
    (hx : x ∈ ps) (hne : x.name ≠ nm) : x ∈ setLastProjColor ps nm c := by
  induction ps with
  | nil => cases hx
  | cons p rest ih =>
    rcases List.mem_cons.mp hx with rfl | hmem
    · unfold setLastProjColor
      by_cases h1 : nm ∈ rest.map Project.name
      · rw [if_pos h1]
        exact List.mem_cons_self _ _
      · rw [if_neg h1, if_neg hne]
        exact List.mem_cons_self _ _
    · unfold setLastProjColor
      by_cases h1 : nm ∈ rest.map Project.name
      · rw [if_pos h1]
        exact List.mem_cons_of_mem _ (ih hmem)
      · rw [if_neg h1]
        by_cases h2 : p.name = nm
        · rw [if_pos h2]
          exact List.mem_cons_of_mem _ hmem
        · rw [if_neg h2]
          exact List.mem_cons_of_mem _ (ih hmem)

theorem setLastProj_mem_set (ps : List Project) (nm : String) (c : JVal)
    (hnm : nm ∈ ps.map Project.name) :
    ({ name := nm, color := c } : Project) ∈ setLastProjColor ps nm c := by
  induction ps with
  | nil => cases hnm
  | cons p rest ih =>
    unfold setLastProjColor
    by_cases h1 : nm ∈ rest.map Project.name
    · rw [if_pos h1]
      exact List.mem_cons_of_mem _ (ih h1)
    · by_cases h2 : p.name = nm
      · rw [if_neg h1, if_pos h2]
        have : ({ p with color := c } : Project) = { name := nm, color := c } := by
          rw [show ({ p with color := c } : Project) = ⟨p.name, c⟩ from rfl, h2]
        rw [this]
        exact List.mem_cons_self _ _
      · rw [List.map_cons, List.mem_cons] at hnm
        rcases hnm with heq | hmem
        · exact absurd heq.symm h2
        · exact absurd hmem h1

theorem mergeProjects_names (ps incs : List Project)
    (hne : ∀ q ∈ incs, q.name ≠ "") (hnd : (incs.map Project.name).Nodup) :
    (mergeProjects ps incs).map Project.name
      = ps.map Project.name ++ (newProjects ps incs).map Project.name := by
  induction incs generalizing ps with
  | nil => simp [mergeProjects, newProjects]
  | cons q rest ih =>
    rw [List.map_cons, List.nodup_cons] at hnd
    obtain ⟨hqnot, hnd2⟩ := hnd
    have hq := hne q (List.mem_cons_self q rest)
    have hne2 : ∀ x ∈ rest, x.name ≠ "" := fun x hx => hne x (List.mem_cons_of_mem q hx)
    unfold mergeProjects
    rw [if_neg hq]
    by_cases hmem : q.name ∈ ps.map Project.name
    · rw [if_pos hmem]
      have hnames2 : ∀ (c : JVal),
          ((if truthy q.color then setLastProjColor ps q.name q.color else ps).map Project.name)
            = ps.map Project.name := by
        intro c
        by_cases hc : truthy q.color = true
        · rw [if_pos hc, setLastProj_names]
        · rw [if_neg hc]
      rw [ih _ hne2 hnd2, hnames2 q.color]
      unfold newProjects
      rw [List.filter_cons]
      have hfilt : (List.filter (fun x => decide (x.name ∉ List.map Project.name
          (if truthy q.color then setLastProjColor ps q.name q.color else ps))) rest)
          = List.filter (fun x => decide (x.name ∉ ps.map Project.name)) rest := by
        apply List.filter_congr
        intro x hx
        rw [hnames2 q.color]
      rw [hfilt]
      simp [hmem]
    · rw [if_neg hmem]
      rw [ih _ hne2 hnd2]
      unfold newProjects
      rw [List.filter_cons]
      have hfc : (List.filter (fun x => decide (x.name ∉
            (ps ++ [Project.mk q.name (if truthy q.color then q.color
                      else .str DEFAULT_CARD_COLOR)]).map Project.name)) rest)
          = List.filter (fun x => decide (x.name ∉ ps.map Project.name)) rest := by
        apply List.filter_congr
        intro x hx
        have hxq : x.name ≠ q.name := by
          intro hcon
          exact hqnot (hcon ▸ List.mem_map_of_mem Project.name hx)
        simp only [List.map_append, List.map_cons, List.map_nil, List.mem_append,
          List.mem_cons, List.not_mem_nil, or_false, decide_eq_decide]
        constructor
        · intro hh
          intro hin
          exact hh (Or.inl hin)
        · intro hh
          rintro (hin | heq)
          · exact hh hin
          · exact hxq heq
      rw [hfc]
      simp [hmem]

theorem mergeProjects_all_wf (ps incs : List Project)
    (hb : ps.all Project.wf = true) (hi : incs.all Project.wf = true) :
    (mergeProjects ps incs).all Project.wf = true := by
  induction incs generalizing ps with
  | nil => exact hb
  | cons q rest ih =>
    rw [List.all_cons, Bool.and_eq_true] at hi
    obtain ⟨hq, hrest⟩ := hi
    unfold Project.wf at hq
    rw [Bool.and_eq_true] at hq
    obtain ⟨hqn, hqc⟩ := hq
    unfold mergeProjects
    by_cases hq0 : q.name = ""
    · rw [if_pos hq0]
      exact ih _ hb hrest
    rw [if_neg hq0]
    by_cases hmem : q.name ∈ ps.map Project.name
    · rw [if_pos hmem]
      refine ih _ ?_ hrest
      by_cases hc : truthy q.color = true
      · rw [if_pos hc]
        exact setLastProj_all_wf ps q.name q.color hb hc
      · rw [if_neg hc]
        exact hb
    · rw [if_neg hmem]
      refine ih _ ?_ hrest
      rw [List.all_append, Bool.and_eq_true]
      refine ⟨hb, ?_⟩
      rw [List.all_cons, List.all_nil, Bool.and_eq_true]
      refine ⟨?_, rfl⟩
      unfold Project.wf
      rw [Bool.and_eq_true]
      refine ⟨hqn, ?_⟩
      by_cases hc : truthy q.color = true
      · rw [if_pos hc]
        exact hc
      · rw [if_neg hc]
        exact truthy_default_color

theorem mergeProjects_names_nodup (ps incs : List Project)
    (hbnd : (ps.map Project.name).Nodup)
    (hne : ∀ q ∈ incs, q.name ≠ "") (hnd : (incs.map Project.name).Nodup) :
    ((mergeProjects ps incs).map Project.name).Nodup := by
  rw [mergeProjects_names ps incs hne hnd]
  refine List.Nodup.append hbnd ?_ ?_
  · exact ((List.filter_sublist incs).map Project.name).nodup hnd
  · intro a ha hb
    unfold newProjects at hb
    rw [List.mem_map] at hb
    obtain ⟨x, hx, rfl⟩ := hb
    rw [List.mem_filter] at hx
    have := of_decide_eq_true hx.2
    exact this ha

theorem mergeProjects_preserve (rest : List Project) (ps2 : List Project) (x : Project)
    (hin2 : x ∈ ps2) (hdiff : ∀ r ∈ rest, r.name ≠ x.name) :
    x ∈ mergeProjects ps2 rest := by
  induction rest generalizing ps2 with
  | nil => exact hin2
  | cons r2 rest2 ih2 =>
    have hd2 : ∀ r ∈ rest2, r.name ≠ x.name :=
      fun r hr => hdiff r (List.mem_cons_of_mem r2 hr)
    have hr2 : r2.name ≠ x.name := hdiff r2 (List.mem_cons_self r2 rest2)
    unfold mergeProjects
    by_cases h0 : r2.name = ""
    · rw [if_pos h0]
      exact ih2 ps2 hin2 hd2
    rw [if_neg h0]
    by_cases hmem2 : r2.name ∈ ps2.map Project.name
    · rw [if_pos hmem2]
      refine ih2 _ ?_ hd2
      by_cases hc2 : truthy r2.color = true
      · rw [if_pos hc2]
        exact setLastProj_mem_other ps2 r2.name r2.color _ hin2 (fun hcc => hr2 hcc.symm)
      · rw [if_neg hc2]
        exact hin2
    · rw [if_neg hmem2]
      refine ih2 _ ?_ hd2
      exact List.mem_append_left _ hin2

theorem mergeProjects_mem_overwrite (ps incs : List Project) (p q : Project)
    (hp : p ∈ ps) (hq : q ∈ incs) (hname : q.name = p.name)
    (hndp : (ps.map Project.name).Nodup) (hndi : (incs.map Project.name).Nodup)
    (hne : ∀ x ∈ incs, x.name ≠ "") (hqc : truthy q.color = true) :
    ({ name := p.name, color := q.color } : Project) ∈ mergeProjects ps incs := by
  induction incs generalizing ps with
  | nil => cases hq
  | cons r rest ih =>
    rw [List.map_cons, List.nodup_cons] at hndi
    obtain ⟨hrnot, hndi2⟩ := hndi
    have hne2 : ∀ x ∈ rest, x.name ≠ "" := fun x hx => hne x (List.mem_cons_of_mem r hx)
    rcases List.mem_cons.mp hq with rfl | hqrest
    · -- q is processed now: its name matches p, so the color is overwritten
      have hq0 : q.name ≠ "" := hne q (List.mem_cons_self q rest)
      have hmem : q.name ∈ ps.map Project.name := hname ▸ List.mem_map_of_mem Project.name hp
      unfold mergeProjects
      rw [if_neg hq0, if_pos hmem, if_pos hqc]
      have hin : ({ name := p.name, color := q.color } : Project)
          ∈ setLastProjColor ps q.name q.color := by
        rw [hname]
        exact setLastProj_mem_set ps p.name q.color (hname ▸ hmem)
      refine mergeProjects_preserve rest _ _ hin ?_
      intro x hx hcon
      apply hrnot
      rw [show ({ name := p.name, color := q.color } : Project).name = p.name from rfl] at hcon
      rw [← hname] at hcon
      exact hcon ▸ List.mem_map_of_mem Project.name hx
    · -- q comes later; processing r keeps p (with its name) intact
      have hrp : r.name ≠ p.name := by
        intro hcon
        apply hrnot
        rw [hcon, ← hname]
        exact List.mem_map_of_mem Project.name hqrest
      unfold mergeProjects
      by_cases h0 : r.name = ""
      · rw [if_pos h0]
        exact ih ps hp hqrest hndp hndi2 hne2
      rw [if_neg h0]
      by_cases hmem : r.name ∈ ps.map Project.name
      · rw [if_pos hmem]
        by_cases hc : truthy r.color = true
        · rw [if_pos hc]
          refine ih _ (setLastProj_mem_other ps r.name r.color p hp
            (fun hcc => hrp hcc.symm)) hqrest ?_ hndi2 hne2
          rw [setLastProj_names]
          exact hndp
        · rw [if_neg hc]
          exact ih ps hp hqrest hndp hndi2 hne2
      · rw [if_neg hmem]
        refine ih _ (List.mem_append_left _ hp) hqrest ?_ hndi2 hne2
        rw [List.map_append]
        refine List.Nodup.append hndp (by simp) ?_
        intro a ha hb
        simp only [List.map_cons, List.map_nil, List.mem_cons, List.not_mem_nil,
          or_false] at hb
        rw [hb] at ha
        exact hmem ha

/-- The projects half of `_normalize_board` applied to a structured board
with well-formed, distinct-named projects returns those projects exactly. -/
theorem normalize_toJVal_projects (bb : Board) (k : Nat) (m : Board) (nf : Nat)
    (hwfp : bb.projects.all Project.wf = true)
    (hnd : (bb.projects.map Project.name).Nodup)
    (h : normalize_board (Board.toJVal bb) k = .ok (m, nf)) :
    m.projects = bb.projects := by
  unfold normalize_board at h
  rcases hcols : normalizeColumns (colsOf (Board.toJVal bb)) k with e | ⟨columns, nn⟩ <;>
    rw [hcols] at h
  · exact Except.noConfusion h
  rw [board_projsOf,
    normalizeProjects_roundtrip bb.projects [] hwfp hnd (by intro x hx hm; cases hm)] at h
  rw [Except.ok.injEq] at h
  have h1 : ({ columns := columns, projects := bb.projects } : Board) = m :=
    congrArg Prod.fst h
  rw [← h1]

/-- Decomposition of a successful `_merge_boards` run into its stages. -/
theorem merge_boards_stages (E I : JVal) (n : Nat) (m : Board) (nf : Nat)
    (base inc : Board) (n1 n2 : Nat)
    (hE : normalize_board E n = .ok (base, n1))
    (hI : normalize_board I n1 = .ok (inc, n2))
    (hM : merge_boards E I n = .ok (m, nf)) :
    ∃ cols n3, mergeColumns base.columns inc.columns n2 = .ok (cols, n3) ∧
      normalize_board (Board.toJVal
        { columns := cols, projects := mergeProjects base.projects inc.projects }) n3
        = .ok (m, nf) := by
  unfold merge_boards at hM
  rw [hE] at hM
  replace hM : (match normalize_board I n1 with
    | Except.error e => Except.error e
    | Except.ok (inc, n2) =>
      match mergeColumns base.columns inc.columns n2 with
      | Except.error e => Except.error e
      | Except.ok (cols, n3) =>
        normalize_board (Board.toJVal
          { columns := cols, projects := mergeProjects base.projects inc.projects }) n3)
      = .ok (m, nf) := hM
  rw [hI] at hM
  replace hM : (match mergeColumns base.columns inc.columns n2 with
    | Except.error e => Except.error e
    | Except.ok (cols, n3) =>
      normalize_board (Board.toJVal
        { columns := cols, projects := mergeProjects base.projects inc.projects }) n3)
      = .ok (m, nf) := hM
  rcases hmc : mergeColumns base.columns inc.columns n2 with e | ⟨cols, n3⟩ <;> rw [hmc] at hM
  · exact Except.noConfusion hM
  exact ⟨cols, n3, rfl, hM⟩

/-- The project lists produced by `_normalize_board` are well-formed with
distinct names (no freshness hypothesis needed: projects carry no ids). -/
theorem normalize_board_projects_wf (v : JVal) (k : Nat) (b : Board) (k1 : Nat)
    (h : normalize_board v k = .ok (b, k1)) :
    b.projects.all Project.wf = true ∧ (b.projects.map Project.name).Nodup := by
  unfold normalize_board at h
  rcases hcols : normalizeColumns (colsOf v) k with e | ⟨columns, nn⟩ <;> rw [hcols] at h
  · exact Except.noConfusion h
  rcases hprojs : normalizeProjects (projsOf v) [] with e | projects <;> rw [hprojs] at h
  · exact Except.noConfusion h
  rw [Except.ok.injEq] at h
  have h1 : ({ columns := columns, projects := projects } : Board) = b := congrArg Prod.fst h
  obtain ⟨p1, p2, p3⟩ := normalizeProjects_ok _ _ _ hprojs
  rw [← h1]
  exact ⟨p1, p2⟩

theorem project_wf_name_ne (ps : List Project) (hwf : ps.all Project.wf = true) :
    ∀ q ∈ ps, q.name ≠ "" := by
  intro q hq
  have := List.all_eq_true.mp hwf q hq
  unfold Project.wf wfStr at this
  simp only [Bool.and_eq_true, bne_iff_ne, ne_eq] at this
  exact this.1.2

/-! ### Merge lemmas for columns -/

theorem findLastCol_mem (cols : List Column) (cid : JVal) (c : Column)
    (h : findLastCol cols cid = some c) : c ∈ cols ∧ c.id = cid := by
  induction cols with
  | nil => cases h
  | cons x rest ih =>
    unfold findLastCol at h
    rcases hrec : findLastCol rest cid with _ | c2 <;> rw [hrec] at h
    · by_cases hx : x.id = cid
      · rw [if_pos hx] at h
        rw [Option.some.injEq] at h
        cases h
        exact ⟨List.mem_cons_self _ _, hx⟩
      · rw [if_neg hx] at h
        exact Option.noConfusion h
    · rw [Option.some.injEq] at h
      cases h
      obtain ⟨hmem, hid⟩ := ih hrec
      exact ⟨List.mem_cons_of_mem _ hmem, hid⟩

theorem findLastCol_none (cols : List Column) (cid : JVal)
    (h : findLastCol cols cid = none) : cid ∉ cols.map Column.id := by
  induction cols with
  | nil => simp
  | cons x rest ih =>
    unfold findLastCol at h
    rcases hrec : findLastCol rest cid with _ | c2 <;> rw [hrec] at h
    · by_cases hx : x.id = cid
      · rw [if_pos hx] at h
        exact Option.noConfusion h
      · rw [if_neg hx] at h
        rw [List.map_cons, List.mem_cons]
        rintro (heq | hmem)
        · exact hx heq.symm
        · exact ih hrec hmem
    · exact Option.noConfusion h

theorem setLastCol_ids (cols : List Column) (cid : JVal) (newCol : Column)
    (hid : newCol.id = cid) :
    (setLastCol cols cid newCol).map Column.id = cols.map Column.id := by
  induction cols with
  | nil => rfl
  | cons x rest ih =>
    unfold setLastCol
    by_cases h1 : cid ∈ rest.map Column.id
    · rw [if_pos h1]
      simp [ih]
    · rw [if_neg h1]
      by_cases h2 : x.id = cid
      · rw [if_pos h2]
        simp [hid, h2]
      · rw [if_neg h2]
        simp [ih]

theorem setLastCol_mem_sub (cols : List Column) (cid : JVal) (newCol : Column) (x : Column)
    (hx : x ∈ setLastCol cols cid newCol) : x = newCol ∨ x ∈ cols := by
  induction cols with
  | nil => cases hx
  | cons y rest ih =>
    unfold setLastCol at hx
    by_cases h1 : cid ∈ rest.map Column.id
    · rw [if_pos h1] at hx
      rcases List.mem_cons.mp hx with rfl | hmem
      · exact Or.inr (List.mem_cons_self _ _)
      · rcases ih hmem with h | h
        · exact Or.inl h
        · exact Or.inr (List.mem_cons_of_mem _ h)
    · rw [if_neg h1] at hx
      by_cases h2 : y.id = cid
      · rw [if_pos h2] at hx
        rcases List.mem_cons.mp hx with rfl | hmem
        · exact Or.inl rfl
        · exact Or.inr (List.mem_cons_of_mem _ hmem)
      · rw [if_neg h2] at hx
        rcases List.mem_cons.mp hx with rfl | hmem
        · exact Or.inr (List.mem_cons_self _ _)
        · rcases ih hmem with h | h
          · exact Or.inl h
          · exact Or.inr (List.mem_cons_of_mem _ h)

theorem setLastCol_mem_other (cols : List Column) (cid : JVal) (newCol : Column) (x : Column)
    (hx : x ∈ cols) (hne : x.id ≠ cid) : x ∈ setLastCol cols cid newCol := by
  induction cols with
  | nil => cases hx
  | cons y rest ih =>
    unfold setLastCol
    rcases List.mem_cons.mp hx with rfl | hmem
    · by_cases h1 : cid ∈ rest.map Column.id
      · rw [if_pos h1]
        exact List.mem_cons_self _ _
      · rw [if_neg h1, if_neg hne]
        exact List.mem_cons_self _ _
    · by_cases h1 : cid ∈ rest.map Column.id
      · rw [if_pos h1]
        exact List.mem_cons_of_mem _ (ih hmem)
      · rw [if_neg h1]
        by_cases h2 : y.id = cid
        · rw [if_pos h2]
          exact List.mem_cons_of_mem _ hmem
        · rw [if_neg h2]
          exact List.mem_cons_of_mem _ (ih hmem)

theorem setLastCol_mem_set (cols : List Column) (cid : JVal) (newCol : Column)
    (hmem : cid ∈ cols.map Column.id) : newCol ∈ setLastCol cols cid newCol := by
  induction cols with
  | nil => cases hmem
  | cons y rest ih =>
    unfold setLastCol
    by_cases h1 : cid ∈ rest.map Column.id
    · rw [if_pos h1]
      exact List.mem_cons_of_mem _ (ih h1)
    · by_cases h2 : y.id = cid
      · rw [if_neg h1, if_pos h2]
        exact List.mem_cons_self _ _
      · rw [List.map_cons, List.mem_cons] at hmem
        rcases hmem with heq | hmem2
        · exact absurd heq.symm h2
        · exact absurd hmem2 h1

theorem card_wf_ne_empty (c : Card) (h : Card.wf c = true) : c.id ≠ "" := by
  unfold Card.wf at h
  simp only [Bool.and_eq_true, bne_iff_ne] at h
  exact h.1.1.1.1.1

/-- The inner card loop of `_merge_boards` never fails on well-formed cards,
keeps every card (regenerating ids that collide with `existingIds`), and
maintains the freshness invariant. -/
theorem mergeCardsInto_ok (cards : List Card) (existingIds : List String) (k : Nat)
    (hw : cards.all Card.wf = true)
    (hex : SeenOk k existingIds)
    (hcs : SeenOk k (cards.map Card.id)) :
    ∃ out k2, mergeCardsInto existingIds cards k = .ok (out, k2) ∧
      k ≤ k2 ∧ out.all Card.wf = true ∧ out.length = cards.length ∧
      (out.map Card.id).Nodup ∧ (∀ s ∈ out.map Card.id, s ∉ existingIds) ∧
      SeenOk k2 (out.map Card.id ++ existingIds) := by
  induction cards generalizing existingIds k with
  | nil =>
    refine ⟨[], k, rfl, Nat.le_refl k, rfl, rfl, List.nodup_nil, ?_, hex⟩
    intro s hs
    cases hs
  | cons c rest ih =>
    rw [List.all_cons, Bool.and_eq_true] at hw
    obtain ⟨hc, hrest⟩ := hw
    have hcs_head : ∀ m2, k ≤ m2 → c.id ≠ freshId m2 :=
      fun m2 hm2 => hcs c.id (by simp) m2 hm2
    have hcs_rest : SeenOk k (rest.map Card.id) := by
      intro s hs
      exact hcs s (by simp only [List.map_cons, List.mem_cons]; exact Or.inr hs)
    by_cases hcoll : c.id ∈ existingIds
    · -- collision: regenerated as freshId k
      have hex2 : SeenOk (k + 1) (freshId k :: existingIds) :=
        seenOk_cons_fresh (Nat.lt_succ_self k) (seenOk_mono hex (Nat.le_succ k))
      obtain ⟨out2, k2, heq, hle, hwf2, hlen2, hnd2, hnotin2, hseen2⟩ :=
        ih (freshId k :: existingIds) (k + 1) hrest hex2 (seenOk_mono hcs_rest (Nat.le_succ k))
      refine ⟨{ c with id := freshId k } :: out2, k2, ?_, by omega, ?_, ?_, ?_, ?_, ?_⟩
      · unfold mergeCardsInto
        rw [sanitize_card_roundtrip c hc k]
        simp only [hcoll, if_true, heq]
      · rw [List.all_cons, Bool.and_eq_true]
        exact ⟨card_wf_set_id c hc k, hwf2⟩
      · simp [hlen2]
      · rw [List.map_cons, List.nodup_cons]
        refine ⟨?_, hnd2⟩
        intro hmem
        exact hnotin2 _ hmem (List.mem_cons_self _ _)
      · intro s hs
        rw [List.map_cons, List.mem_cons] at hs
        rcases hs with rfl | hs
        · intro habs
          exact hex _ habs k (Nat.le_refl k) rfl
        · intro habs
          exact hnotin2 s hs (List.mem_cons_of_mem _ habs)
      · refine seenOk_sub hseen2 ?_
        intro s hs
        simp only [List.map_cons, List.cons_append, List.mem_cons, List.mem_append] at hs ⊢
        tauto
    · -- no collision: kept as is
      have hex2 : SeenOk k (c.id :: existingIds) := by
        intro s hs m2 hm2
        rcases List.mem_cons.mp hs with rfl | hs2
        · exact hcs_head m2 hm2
        · exact hex s hs2 m2 hm2
      obtain ⟨out2, k2, heq, hle, hwf2, hlen2, hnd2, hnotin2, hseen2⟩ :=
        ih (c.id :: existingIds) k hrest hex2 hcs_rest
      refine ⟨c :: out2, k2, ?_, hle, ?_, ?_, ?_, ?_, ?_⟩
      · unfold mergeCardsInto
        rw [sanitize_card_roundtrip c hc k]
        simp only [hcoll, if_false, ite_false, if_neg hcoll, heq]
      · rw [List.all_cons, Bool.and_eq_true]
        exact ⟨hc, hwf2⟩
      · simp [hlen2]
      · rw [List.map_cons, List.nodup_cons]
        refine ⟨?_, hnd2⟩
        intro hmem
        exact hnotin2 _ hmem (List.mem_cons_self _ _)
      · intro s hs
        rw [List.map_cons, List.mem_cons] at hs
        rcases hs with rfl | hs
        · exact hcoll
        · intro habs
          exact hnotin2 s hs (List.mem_cons_of_mem _ habs)
      · refine seenOk_sub hseen2 ?_
        intro s hs
        simp only [List.map_cons, List.cons_append, List.mem_cons, List.mem_append] at hs ⊢
        tauto

/-- A column of the merged board is untouched by incoming columns with
other ids. -/
theorem mergeColumns_preserve (incCols : List Column) (cols2 : List Column) (k : Nat)
    (out : List Column) (k' : Nat) (x : Column)
    (h : mergeColumns cols2 incCols k = .ok (out, k'))
    (hx : x ∈ cols2) (hdiff : ∀ r ∈ incCols, r.id ≠ x.id) :
    x ∈ out := by
  induction incCols generalizing cols2 k with
  | nil =>
    rw [show mergeColumns cols2 [] k = .ok (cols2, k) from rfl, Except.ok.injEq] at h
    have h1 : cols2 = out := congrArg Prod.fst h
    rw [← h1]
    exact hx
  | cons r rest ih =>
    have hd2 : ∀ r2 ∈ rest, r2.id ≠ x.id := fun r2 hr2 => hdiff r2 (List.mem_cons_of_mem r hr2)
    have hr : r.id ≠ x.id := hdiff r (List.mem_cons_self r rest)
    unfold mergeColumns at h
    rcases hf : findLastCol cols2 r.id with _ | target <;> rw [hf] at h
    · exact ih (cols2 ++ [r]) k h (List.mem_append_left _ hx) hd2
    · replace h : (match mergeCardsInto (target.cards.map Card.id) r.cards k with
        | Except.error e => Except.error e
        | Except.ok (newCards, n1) =>
          mergeColumns (setLastCol cols2 r.id
            { target with
              title := r.title
              color := r.color
              hidden := r.hidden
              cards := target.cards ++ newCards }) rest n1) = Except.ok (out, k') := h
      rcases hmc : mergeCardsInto (target.cards.map Card.id) r.cards k with e | ⟨newCards, k2⟩ <;>
        rw [hmc] at h
      · exact Except.noConfusion h
      · exact ih _ k2 h (setLastCol_mem_other cols2 r.id _ x hx (fun hcc => hr hcc.symm)) hd2

/-- Master lemma for the column loop of `_merge_boards`: the merged column
id list is the base ids followed by the genuinely new incoming ids; every
shared id yields one column holding the base cards followed by the
(possibly regenerated) incoming cards; well-formedness and the freshness
invariant are maintained. -/
theorem mergeColumns_ok (incCols : List Column) (baseCols : List Column) (k : Nat)
    (out : List Column) (k' : Nat)
    (hbw : baseCols.all Column.wf = true) (hiw : incCols.all Column.wf = true)
    (hbseen : ∀ c ∈ baseCols, SeenOk k (c.cards.map Card.id))
    (hiseen : ∀ c ∈ incCols, SeenOk k (c.cards.map Card.id))
    (hndb : (baseCols.map Column.id).Nodup)
    (hndi : (incCols.map Column.id).Nodup)
    (h : mergeColumns baseCols incCols k = .ok (out, k')) :
    k ≤ k' ∧
    out.all Column.wf = true ∧
    (∀ c ∈ out, SeenOk k' (c.cards.map Card.id)) ∧
    out.map Column.id = baseCols.map Column.id
      ++ (incCols.filter (fun c => decide (c.id ∉ baseCols.map Column.id))).map Column.id ∧
    (∀ bc ∈ baseCols, ∀ ic ∈ incCols, bc.id = ic.id →
      ∃ kk kk2 newCards,
        mergeCardsInto (bc.cards.map Card.id) ic.cards kk = .ok (newCards, kk2) ∧
        (Column.mk bc.id ic.title ic.color ic.hidden (bc.cards ++ newCards)) ∈ out) := by
  induction incCols generalizing baseCols k with
  | nil =>
    rw [show mergeColumns baseCols [] k = .ok (baseCols, k) from rfl, Except.ok.injEq] at h
    have h1 : baseCols = out := congrArg Prod.fst h
    have h2 : k = k' := congrArg Prod.snd h
    cases h1
    cases h2
    refine ⟨Nat.le_refl _, hbw, hbseen, by simp, ?_⟩
    intro bc hbc ic hic
    cases hic
  | cons inc rest ih =>
    rw [List.all_cons, Bool.and_eq_true] at hiw
    obtain ⟨hincw, hrestw⟩ := hiw
    rw [List.map_cons, List.nodup_cons] at hndi
    obtain ⟨hincnot, hndi2⟩ := hndi
    have hiseen2 : ∀ c ∈ rest, SeenOk k (c.cards.map Card.id) :=
      fun c hc => hiseen c (List.mem_cons_of_mem inc hc)
    have hincseen : SeenOk k (inc.cards.map Card.id) :=
      hiseen inc (List.mem_cons_self inc rest)
    unfold mergeColumns at h
    rcases hf : findLastCol baseCols inc.id with _ | target <;> rw [hf] at h
    · -- new column id: the incoming column is appended whole
      have hnotmem : inc.id ∉ baseCols.map Column.id := findLastCol_none baseCols inc.id hf
      have hbw2 : (baseCols ++ [inc]).all Column.wf = true := by
        rw [List.all_append, Bool.and_eq_true]
        exact ⟨hbw, by rw [List.all_cons, List.all_nil, Bool.and_eq_true]; exact ⟨hincw, rfl⟩⟩
      have hbseen2 : ∀ c ∈ baseCols ++ [inc], SeenOk k (c.cards.map Card.id) := by
        intro c hc
        rcases List.mem_append.mp hc with hc2 | hc2
        · exact hbseen c hc2
        · rw [List.mem_cons] at hc2
          rcases hc2 with rfl | hc3
          · exact hincseen
          · cases hc3
      have hndb2 : ((baseCols ++ [inc]).map Column.id).Nodup := by
        rw [List.map_append]
        refine List.Nodup.append hndb (by simp) ?_
        intro a ha hb
        simp only [List.map_cons, List.map_nil, List.mem_cons, List.not_mem_nil, or_false] at hb
        rw [hb] at ha
        exact hnotmem ha
      obtain ⟨g1, g2, g3, g4, g5⟩ := ih (baseCols ++ [inc]) k hbw2 hrestw hbseen2 hiseen2
        hndb2 hndi2 h
      refine ⟨g1, g2, g3, ?_, ?_⟩
      · rw [g4]
        have hfc : (rest.filter (fun c =>
              decide (c.id ∉ (baseCols ++ [inc]).map Column.id)))
            = rest.filter (fun c => decide (c.id ∉ baseCols.map Column.id)) := by
          apply List.filter_congr
          intro x hx
          have hxne : x.id ≠ inc.id := by
            intro hcon
            exact hincnot (hcon ▸ List.mem_map_of_mem Column.id hx)
          simp only [List.map_append, List.map_cons, List.map_nil, List.mem_append,
            List.mem_cons, List.not_mem_nil, or_false, decide_eq_decide]
          constructor
          · intro hh hin
            exact hh (Or.inl hin)
          · intro hh
            rintro (hin | heq)
            · exact hh hin
            · exact hxne heq
        rw [hfc, List.filter_cons]
        have hdec : decide (inc.id ∉ baseCols.map Column.id) = true := by
          simpa using hnotmem
        rw [hdec]
        simp
      · intro bc hbc ic hic heq
        rcases List.mem_cons.mp hic with rfl | hic2
        · exact absurd (heq ▸ List.mem_map_of_mem Column.id hbc) hnotmem
        · exact g5 bc (List.mem_append_left _ hbc) ic hic2 heq
    · -- matched column id: merge the incoming cards into the target
      obtain ⟨htmem, htid⟩ := findLastCol_mem baseCols inc.id target hf
      have htw := List.all_eq_true.mp hbw target htmem
      have htseen : SeenOk k (target.cards.map Card.id) := hbseen target htmem
      have htcw : target.cards.all Card.wf = true := by
        unfold Column.wf at htw
        simp only [Bool.and_eq_true] at htw
        exact htw.1.2
      have hicw : inc.cards.all Card.wf = true := by
        unfold Column.wf at hincw
        simp only [Bool.and_eq_true] at hincw
        exact hincw.1.2
      obtain ⟨newCards, k2, hmc, hle, hncw, hnclen, hncnd, hncnotin, hncseen⟩ :=
        mergeCardsInto_ok inc.cards (target.cards.map Card.id) k hicw htseen hincseen
      replace h : (match mergeCardsInto (target.cards.map Card.id) inc.cards k with
        | Except.error e => Except.error e
        | Except.ok (newCards, n1) =>
          mergeColumns (setLastCol baseCols inc.id
            { target with
              title := inc.title
              color := inc.color
              hidden := inc.hidden
              cards := target.cards ++ newCards }) rest n1) = Except.ok (out, k') := h
      rw [hmc] at h
      set updated : Column :=
        { target with
          title := inc.title
          color := inc.color
          hidden := inc.hidden
          cards := target.cards ++ newCards } with hupd
      have hupd_wf : Column.wf updated = true := by
        unfold Column.wf at htw hincw ⊢
        simp only [Bool.and_eq_true] at htw hincw ⊢
        refine ⟨⟨⟨⟨htw.1.1.1.1, hincw.1.1.1.2⟩, hincw.1.1.2⟩, ?_⟩, ?_⟩
        · rw [List.all_append, Bool.and_eq_true]
          exact ⟨htcw, hncw⟩
        · rw [List.map_append, nodupIds_iff]
          refine List.Nodup.append ((nodupIds_iff _).mp htw.2) hncnd ?_
          intro a ha hb
          exact (hncnotin a hb) ha
      have hupd_seen : SeenOk k2 (updated.cards.map Card.id) := by
        rw [show updated.cards = target.cards ++ newCards from rfl, List.map_append]
        refine seenOk_sub hncseen ?_
        intro s hs
        rw [List.mem_append] at hs ⊢
        tauto
      have hbw2 : (setLastCol baseCols inc.id updated).all Column.wf = true := by
        rw [List.all_eq_true]
        intro x hx
        rcases setLastCol_mem_sub baseCols inc.id updated x hx with rfl | hx2
        · exact hupd_wf
        · exact List.all_eq_true.mp hbw x hx2
      have hbseen2 : ∀ c ∈ setLastCol baseCols inc.id updated,
          SeenOk k2 (c.cards.map Card.id) := by
        intro c hc
        rcases setLastCol_mem_sub baseCols inc.id updated c hc with rfl | hc2
        · exact hupd_seen
        · exact seenOk_mono (hbseen c hc2) hle
      have hids2 : (setLastCol baseCols inc.id updated).map Column.id
          = baseCols.map Column.id :=
        setLastCol_ids baseCols inc.id updated htid
      have hndb2 : ((setLastCol baseCols inc.id updated).map Column.id).Nodup := by
        rw [hids2]
        exact hndb
      have hiseen3 : ∀ c ∈ rest, SeenOk k2 (c.cards.map Card.id) :=
        fun c hc => seenOk_mono (hiseen2 c hc) hle
      obtain ⟨g1, g2, g3, g4, g5⟩ := ih (setLastCol baseCols inc.id updated) k2 hbw2 hrestw
        hbseen2 hiseen3 hndb2 hndi2 h
      have hincmem : inc.id ∈ baseCols.map Column.id := by
        rw [← htid]
        exact List.mem_map_of_mem Column.id htmem
      refine ⟨by omega, g2, g3, ?_, ?_⟩
      · rw [g4, hids2, List.filter_cons]
        have hdec : decide (inc.id ∉ baseCols.map Column.id) = false := by
          simpa using hincmem
        rw [hdec]
        simp
      · intro bc hbc ic hic heq
        rcases List.mem_cons.mp hic with rfl | hic2
        · -- the head incoming column: bc is exactly the matched target
          have hbt : bc = target :=
            List.inj_on_of_nodup_map hndb hbc htmem (by rw [heq, htid])
          refine ⟨k, k2, newCards, ?_, ?_⟩
          · rw [hbt]
            exact hmc
          · have hgoal : (Column.mk bc.id ic.title ic.color ic.hidden
                (bc.cards ++ newCards)) = updated := by
              rw [hbt, hupd]
            rw [hgoal]
            refine mergeColumns_preserve rest _ k2 out k' updated h
              (setLastCol_mem_set baseCols ic.id updated hincmem) ?_
            intro r hr hcon
            apply hincnot
            rw [show updated.id = target.id from rfl, htid] at hcon
            exact hcon ▸ List.mem_map_of_mem Column.id hr
        · -- a later incoming column: bc is untouched by this step
          have hbcne : bc.id ≠ inc.id := by
            intro hcon
            apply hincnot
            rw [← hcon, heq]
            exact List.mem_map_of_mem Column.id hic2
          exact g5 bc (setLastCol_mem_other baseCols inc.id updated bc hbc hbcne) ic hic2 heq

/-! ### Shared witness inputs -/

/-! ### Claims -/

/-- Claim C2: `normalize` is idempotent — re-normalizing a board that
`normalize` produced returns it unchanged and generates no new ids (the
counter `m` of the second run is returned untouched, and the result is the
same board `b`). The hypothesis `boardIdsOk` is the standing abstraction
that real `uuid4` ids never collide with ids supplied in the input. -/
theorem normalize_idempotent (v : JVal) (n m : Nat) (b : Board) (n1 : Nat)
    (hids : boardIdsOk v = true)
    (h : normalize_board v n = .ok (b, n1)) :
    normalize_board (Board.toJVal b) m = .ok (b, m) := by
  obtain ⟨-, hwf, -, -⟩ := normalize_board_ok v n b n1 hids h
  exact normalize_board_roundtrip b hwf m

/-- Witness for C2 at a concrete input with a duplicated card id. -/
theorem normalize_idempotent_witness :
    boardIdsOk sampleRaw = true ∧
    normalize_board sampleRaw 0 = .ok (sampleBoard, 1) ∧
    normalize_board (Board.toJVal sampleBoard) 5 = .ok (sampleBoard, 5) :=
  ⟨rfl, rfl, normalize_idempotent sampleRaw 0 5 sampleBoard 1 rfl rfl⟩

/-- Claim C3: the claim says `normalize` never raises, but `_normalize_board`
evaluates `(proj.get('name') or '').strip()`, which raises `AttributeError`
when the `name` field is a truthy non-string (here the number `1`); the same
happens for a card's truthy non-string `project` field. The normalizer is
therefore not total on wrong-typed fields: this theorem evaluates the
failing input. -/
theorem normalize_board_raises_on_nonstring_name :
    normalize_board (.obj [("projects", .arr [.obj [("name", .num 1)]])]) 0
      = .error "AttributeError: strip on non-string" := rfl

/-- Claim C4: in every column of `normalize`'s output the card ids are
pairwise distinct, and each column keeps one card per dict element of its
raw `cards` list (colliding ids are regenerated, never dropped); the
`Forall₂` pairs each output column with the dict elements of the raw
`columns` list in order. `boardIdsOk` is the uuid-freshness abstraction. -/
theorem normalize_card_ids (v : JVal) (n : Nat) (b : Board) (n' : Nat)
    (hids : boardIdsOk v = true)
    (h : normalize_board v n = .ok (b, n')) :
    (∀ col ∈ b.columns, (col.cards.map Card.id).Nodup) ∧
    List.Forall₂ (fun (oc : Column) (ic : JVal) =>
      oc.cards.length = ((cardsOf ic).filter JVal.isObj).length) b.columns
      ((colsOf v).filter JVal.isObj) := by
  obtain ⟨-, hwf, hcnt, -⟩ := normalize_board_ok v n b n' hids h
  refine ⟨?_, hcnt⟩
  intro col hcol
  unfold Board.wf at hwf
  simp only [Bool.and_eq_true] at hwf
  have hcw := List.all_eq_true.mp hwf.1.1 col hcol
  unfold Column.wf at hcw
  simp only [Bool.and_eq_true] at hcw
  exact (nodupIds_iff _).mp hcw.2

/-- Witness for C4: the sample input has two cards with the same id in one
column; both survive with distinct ids. -/
theorem normalize_card_ids_witness :
    (∀ col ∈ sampleBoard.columns, (col.cards.map Card.id).Nodup) ∧
    List.Forall₂ (fun (oc : Column) (ic : JVal) =>
      oc.cards.length = ((cardsOf ic).filter JVal.isObj).length) sampleBoard.columns
      ((colsOf sampleRaw).filter JVal.isObj) :=
  normalize_card_ids sampleRaw 0 sampleBoard 1 rfl rfl

/-- Claim C5: merging an empty board is the identity on content —
`merge(E, \x7b\x7d)` returns exactly `normalize(E)` (same columns, same
projects, same id counter). -/
theorem merge_empty_identity (E : JVal) (n : Nat) (b : Board) (n1 : Nat)
    (hids : boardIdsOk E = true)
    (h : normalize_board E n = .ok (b, n1)) :
    merge_boards E (.obj []) n = .ok (b, n1) := by
  obtain ⟨-, hwf, -, -⟩ := normalize_board_ok E n b n1 hids h
  have hstep : merge_boards E (.obj []) n = normalize_board (Board.toJVal b) n1 := by
    unfold merge_boards
    rw [h]
    rfl
  rw [hstep]
  exact normalize_board_roundtrip b hwf n1

/-- Witness for C5 at the shared sample board. -/
theorem merge_empty_identity_witness :
    boardIdsOk sampleRaw = true ∧
    normalize_board sampleRaw 0 = .ok (sampleBoard, 1) ∧
    merge_boards sampleRaw (.obj []) 0 = .ok (sampleBoard, 1) :=
  ⟨rfl, rfl, merge_empty_identity sampleRaw 0 sampleBoard 1 rfl rfl⟩

/-- Claim C1 (counterexample): the existing project `A` has color
`#ff0000` and the incoming project `A` supplies no color at all (its
`color` lookup is `None`), yet after the merge the project's color is the
default `#5b2e8a` — it was overwritten, refuting the claim that the color
is overwritten only when the incoming project supplied a non-empty
color. -/
theorem merge_project_color_cex :
    merge_boards
        (.obj [("projects", .arr [.obj [("name", .str "A"), ("color", .str "#ff0000")]])])
        (.obj [("projects", .arr [.obj [("name", .str "A")]])]) 0
      = .ok ({ columns := [], projects := [{ name := "A", color := .str "#5b2e8a" }] }, 0)
    ∧ (JVal.obj [("name", .str "A")]).get "color" = .null := ⟨rfl, rfl⟩

/-- Claim C1 (amended): because `_merge_boards` normalizes the incoming
board first, and normalization replaces a missing/falsy project color with
the (truthy) default `#5b2e8a`, the `if proj.get('color')` guard in the
merge always holds: an incoming project matching an existing project by
name ALWAYS overwrites the existing color with the incoming project's
normalized color (the supplied color when truthy, else the default). The
name is never changed by merge: the merged name list is the base names
followed by the genuinely new incoming names. -/
theorem merge_project_color_overwrite (E I : JVal) (n : Nat) (m : Board) (nf : Nat)
    (base inc : Board) (n1 n2 : Nat) (p q : Project)
    (hE : normalize_board E n = .ok (base, n1))
    (hI : normalize_board I n1 = .ok (inc, n2))
    (hM : merge_boards E I n = .ok (m, nf))
    (hp : p ∈ base.projects) (hq : q ∈ inc.projects) (hname : q.name = p.name) :
    ({ name := p.name, color := q.color } : Project) ∈ m.projects ∧
    m.projects.map Project.name
      = base.projects.map Project.name
        ++ (newProjects base.projects inc.projects).map Project.name := by
  obtain ⟨cols, n3, hmc, hfin⟩ := merge_boards_stages E I n m nf base inc n1 n2 hE hI hM
  obtain ⟨hbw, hbnd⟩ := normalize_board_projects_wf E n base n1 hE
  obtain ⟨hiw, hind⟩ := normalize_board_projects_wf I n1 inc n2 hI
  have hne := project_wf_name_ne inc.projects hiw
  have hmw := mergeProjects_all_wf base.projects inc.projects hbw hiw
  have hmnd := mergeProjects_names_nodup base.projects inc.projects hbnd hne hind
  have hmp : m.projects = mergeProjects base.projects inc.projects :=
    normalize_toJVal_projects _ n3 m nf hmw hmnd hfin
  rw [hmp]
  constructor
  · have hqwf := List.all_eq_true.mp hiw q hq
    unfold Project.wf at hqwf
    rw [Bool.and_eq_true] at hqwf
    exact mergeProjects_mem_overwrite _ _ p q hp hq hname hbnd hind hne hqwf.2
  · exact mergeProjects_names base.projects inc.projects hne hind

/-- Witness for the amended C1 at the counterexample input: the merged
color of `A` is the incoming normalized color (the default, since the
incoming project supplied none). -/
theorem merge_project_color_overwrite_witness :
    ({ name := "A", color := JVal.str "#5b2e8a" } : Project)
      ∈ ({ columns := [], projects := [{ name := "A", color := JVal.str "#5b2e8a" }] }
          : Board).projects ∧
    ({ columns := [], projects := [{ name := "A", color := JVal.str "#5b2e8a" }] }
        : Board).projects.map Project.name
      = ({ columns := [], projects := [{ name := "A", color := JVal.str "#ff0000" }] }
          : Board).projects.map Project.name
        ++ (newProjects
              ({ columns := [], projects := [{ name := "A", color := JVal.str "#ff0000" }] }
                : Board).projects
              ({ columns := [], projects := [{ name := "A", color := JVal.str "#5b2e8a" }] }
                : Board).projects).map Project.name :=
  merge_project_color_overwrite
    (.obj [("projects", .arr [.obj [("name", .str "A"), ("color", .str "#ff0000")]])])
    (.obj [("projects", .arr [.obj [("name", .str "A")]])]) 0
    { columns := [], projects := [{ name := "A", color := .str "#5b2e8a" }] } 0
    { columns := [], projects := [{ name := "A", color := .str "#ff0000" }] }
    { columns := [], projects := [{ name := "A", color := .str "#5b2e8a" }] } 0 0
    { name := "A", color := .str "#ff0000" } { name := "A", color := .str "#5b2e8a" }
    rfl rfl rfl (List.mem_cons_self _ _) (List.mem_cons_self _ _) rfl

/-- Claim C6: merged column counts and card unions. The two `Nodup`
hypotheses restrict the statement to boards satisfying the data-model
invariant that column ids are unique within a board (spec section 3);
`boardIdsOk` is the uuid-freshness abstraction. Conclusions: the merged
column count is the base count plus the number of incoming columns with
unmatched ids; with disjoint id sets that is the sum of both counts; and
each shared id yields one merged column holding the existing column's cards
followed by the incoming column's cards with colliding ids regenerated (the
`mergeCardsInto` loop of the source). -/
theorem merge_column_union (E I : JVal) (n : Nat) (m : Board) (nf : Nat)
    (base inc : Board) (n1 n2 : Nat)
    (hidsE : boardIdsOk E = true) (hidsI : boardIdsOk I = true)
    (hE : normalize_board E n = .ok (base, n1))
    (hI : normalize_board I n1 = .ok (inc, n2))
    (hM : merge_boards E I n = .ok (m, nf))
    (hndb : (base.columns.map Column.id).Nodup)
    (hndi : (inc.columns.map Column.id).Nodup) :
    m.columns.length = base.columns.length
      + (inc.columns.filter (fun c => decide (c.id ∉ base.columns.map Column.id))).length
    ∧ ((∀ cid ∈ inc.columns.map Column.id, cid ∉ base.columns.map Column.id) →
        m.columns.length = base.columns.length + inc.columns.length)
    ∧ (∀ bc ∈ base.columns, ∀ ic ∈ inc.columns, bc.id = ic.id →
        ∃ kk kk2 newCards,
          mergeCardsInto (bc.cards.map Card.id) ic.cards kk = .ok (newCards, kk2) ∧
          (Column.mk bc.id ic.title ic.color ic.hidden (bc.cards ++ newCards)) ∈ m.columns) := by
  obtain ⟨cols, n3, hmc, hfin⟩ := merge_boards_stages E I n m nf base inc n1 n2 hE hI hM
  obtain ⟨he1, hbwf, -, hbseen⟩ := normalize_board_ok E n base n1 hidsE hE
  obtain ⟨hi1, hiwf, -, hiseen⟩ := normalize_board_ok I n1 inc n2 hidsI hI
  unfold Board.wf at hbwf hiwf
  simp only [Bool.and_eq_true] at hbwf hiwf
  have hbseen2 : ∀ c ∈ base.columns, SeenOk n2 (c.cards.map Card.id) :=
    fun c hc => seenOk_mono (hbseen c hc) hi1
  obtain ⟨g1, g2, g3, g4, g5⟩ := mergeColumns_ok inc.columns base.columns n2 cols n3
    hbwf.1.1 hiwf.1.1 hbseen2 hiseen hndb hndi hmc
  have hbpw := hbwf.1.2
  have hipw := hiwf.1.2
  have hne := project_wf_name_ne inc.projects hipw
  have hmw : Board.wf { columns := cols, projects := mergeProjects base.projects inc.projects } = true := by
    unfold Board.wf
    simp only [Bool.and_eq_true]
    exact ⟨⟨g2, mergeProjects_all_wf base.projects inc.projects hbpw hipw⟩,
      (nodupIds_iff _).mpr (mergeProjects_names_nodup base.projects inc.projects
        ((nodupIds_iff _).mp hbwf.2) hne
        ((nodupIds_iff _).mp hiwf.2))⟩
  have hrt := normalize_board_roundtrip _ hmw n3
  rw [hfin, Except.ok.injEq] at hrt
  have hm1 : m = { columns := cols, projects := mergeProjects base.projects inc.projects } :=
    congrArg Prod.fst hrt
  have hmcols : m.columns = cols := by rw [hm1]
  refine ⟨?_, ?_, ?_⟩
  · have hlen := congrArg List.length g4
    rw [List.length_map, List.length_append, List.length_map, List.length_map] at hlen
    rw [hmcols]
    exact hlen
  · intro hdisj
    have hfeq : inc.columns.filter
        (fun c => decide (c.id ∉ base.columns.map Column.id)) = inc.columns := by
      rw [List.filter_eq_self]
      intro c hc
      simpa using hdisj c.id (List.mem_map_of_mem Column.id hc)
    have hlen := congrArg List.length g4
    rw [List.length_map, List.length_append, List.length_map, List.length_map, hfeq] at hlen
    rw [hmcols]
    exact hlen
  · intro bc hbc ic hic heq
    obtain ⟨kk, kk2, newCards, hcall, hmem⟩ := g5 bc hbc ic hic heq
    exact ⟨kk, kk2, newCards, hcall, by rw [hmcols]; exact hmem⟩

/-- Witness for C6 at a concrete overlapping merge. -/
theorem merge_column_union_witness :
    mergeOut.columns.length = mergeBase.columns.length
      + (mergeInc.columns.filter
          (fun c => decide (c.id ∉ mergeBase.columns.map Column.id))).length
    ∧ ((∀ cid ∈ mergeInc.columns.map Column.id, cid ∉ mergeBase.columns.map Column.id) →
        mergeOut.columns.length = mergeBase.columns.length + mergeInc.columns.length)
    ∧ (∀ bc ∈ mergeBase.columns, ∀ ic ∈ mergeInc.columns, bc.id = ic.id →
        ∃ kk kk2 newCards,
          mergeCardsInto (bc.cards.map Card.id) ic.cards kk = .ok (newCards, kk2) ∧
          (Column.mk bc.id ic.title ic.color ic.hidden (bc.cards ++ newCards))
            ∈ mergeOut.columns) :=
  merge_column_union mergeRawE mergeRawI 0 mergeOut 1 mergeBase mergeInc 0 0
    rfl rfl rfl rfl rfl (by decide) (by decide)

/-! ### The create-card handler's project/color behaviour -/

theorem hexColor_ne_empty (x : Nat) : hexColor x ≠ "" := by
  intro h
  have hd := congrArg String.data h
  rw [hexColor, string_data_append] at hd
  exact List.noConfusion hd

theorem genLoop_spec (existing : List String) (r : Nat → Nat) (fuel : Nat) :
    ∀ k, ∃ j, genLoop existing r k fuel = hexColor (r j) := by
  induction fuel with
  | zero => intro k; exact ⟨k, rfl⟩
  | succ fuel ih =>
    intro k
    simp only [genLoop]
    by_cases h : pyLower (hexColor (r k)) ∈ existing
    · rw [if_pos h]; exact ih (k + 1)
    · rw [if_neg h]; exact ⟨k, rfl⟩

theorem setFirstProj_mem (l : List Project) (name : String) (newP : Project)
    (h : ∃ q ∈ l, q.name = name) : newP ∈ setFirstProj l name newP := by
  induction l with
  | nil =>
    obtain ⟨q, hq, h2⟩ := h
    exact absurd hq (List.not_mem_nil q)
  | cons p rest ih =>
    rw [setFirstProj]
    by_cases hp : p.name = name
    · rw [if_pos hp]; exact List.mem_cons_self _ _
    · rw [if_neg hp]
      obtain ⟨q, hq, hqn⟩ := h
      rcases List.mem_cons.mp hq with rfl | hq2
      · exact absurd hqn hp
      · exact List.mem_cons_of_mem _ (ih ⟨q, hq2, hqn⟩)

/-- What `_ensure_project` returns for a non-empty (stripped) name: some
project carrying that name and a truthy color, present in the returned
board, with the columns untouched; when the name was new, the color is a
freshly generated hex color from the random stream. -/
theorem ensure_project_some (board : Board) (pn : String) (r : Nat → Nat)
    (b1 : Board) (pd : Option Project)
    (hs : pyStrip pn = pn) (hne : pn ≠ "")
    (h : ensure_project board pn r = .ok (b1, pd)) :
    ∃ p, pd = some p ∧ p.name = pn ∧ truthy p.color = true ∧ p ∈ b1.projects ∧
      b1.columns = board.columns ∧
      (pn ∉ board.projects.map Project.name → ∃ k, p.color = .str (hexColor (r k))) := by
  simp only [ensure_project, hs] at h
  rw [if_neg hne] at h
  cases hf : board.projects.find? (fun p => p.name == pn) with
  | some existing =>
    simp only [hf] at h
    have hmem := List.mem_of_find?_eq_some hf
    have hname : existing.name = pn := by simpa using List.find?_some hf
    have hinmap : pn ∈ board.projects.map Project.name := by
      rw [← hname]
      exact List.mem_map_of_mem Project.name hmem
    cases hc : truthy existing.color with
    | true =>
      rw [if_pos hc] at h
      have h2 := Except.ok.inj h
      have hb : b1 = board := (congrArg Prod.fst h2).symm
      have hp : pd = some existing := (congrArg Prod.snd h2).symm
      exact ⟨existing, hp, hname, hc, by rw [hb]; exact hmem, by rw [hb],
        fun hni => absurd hinmap hni⟩
    | false =>
      rw [if_neg (by rw [hc]; exact Bool.false_ne_true)] at h
      have h2 := Except.ok.inj h
      have hb : b1 = { board with
        projects := setFirstProj board.projects pn { existing with color := .str DEFAULT_CARD_COLOR } } :=
        (congrArg Prod.fst h2).symm
      have hp : pd = some { existing with color := .str DEFAULT_CARD_COLOR } :=
        (congrArg Prod.snd h2).symm
      refine ⟨{ existing with color := .str DEFAULT_CARD_COLOR }, hp, hname,
        truthy_default_color, ?_, by rw [hb], fun hni => absurd hinmap hni⟩
      rw [hb]
      exact setFirstProj_mem board.projects pn _ ⟨existing, hmem, hname⟩
  | none =>
    simp only [hf] at h
    cases hg : generate_unique_color board r with
    | error e =>
      simp only [hg] at h
      exact Except.noConfusion h
    | ok color =>
      simp only [hg] at h
      obtain ⟨j, hj⟩ : ∃ j, color = hexColor (r j) := by
        rw [generate_unique_color] at hg
        cases hec : existingColors board.projects with
        | error e => rw [hec] at hg; exact Except.noConfusion hg
        | ok ex =>
          rw [hec] at hg
          have hgc := Except.ok.inj hg
          obtain ⟨j, hj2⟩ := genLoop_spec ex r 32 0
          exact ⟨j, by rw [← hgc, hj2]⟩
      have h2 := Except.ok.inj h
      have hb : b1 = { board with
        projects := board.projects ++ [{ name := pn, color := .str color }] } :=
        (congrArg Prod.fst h2).symm
      have hp : pd = some { name := pn, color := .str color } :=
        (congrArg Prod.snd h2).symm
      refine ⟨{ name := pn, color := .str color }, hp, rfl, ?_, ?_, by rw [hb],
        fun h3 => ⟨j, by rw [hj]⟩⟩
      · rw [truthy_str, hj]
        exact bne_iff_ne.mpr (hexColor_ne_empty (r j))
      · rw [hb]
        exact List.mem_append_right _ (List.mem_singleton.mpr rfl)

/-- Claim C7 counterexample: the claim says the created card's color is
"never the default purple", but when the project already exists with the
default purple as its stored color (here supplied explicitly, though
normalization also assigns it to colorless projects), the created card's
color is exactly the default purple — even though an explicit different
color was supplied with the request. -/
theorem create_card_default_purple_cex :
    ∃ saved card,
      create_card
        { columns := [{ id := .str "todo"
                        title := "Todo"
                        color := .str "#9aa0a6"
                        hidden := false
                        cards := [] }]
          projects := [{ name := "P", color := .str "#5b2e8a" }] }
        (.obj [("title", .str "T"), ("project", .str "P"), ("color", .str "#00ff00")])
        0 (fun _ => 0) = .ok (.created saved card) ∧
      card.color = some (.str DEFAULT_CARD_COLOR) :=
  ⟨_, _, rfl, rfl⟩

/-- Claim C7 (amended): when `create_card` succeeds for a payload whose
project field strips to a non-empty name, the card references that project
and its color is forced to the project's (truthy) color — overriding any
explicitly supplied card color; when the project name was new to the board,
that color is a generated hex color from the random stream. The color can
still be the default purple when the matched project's own color is the
default purple. -/
theorem create_card_forces_project_color (board : Board) (data : JVal) (n : Nat)
    (r : Nat → Nat) (saved : Board) (card : Card) (pn : String)
    (hpn : stripOrEmpty (JVal.get data "project") = .ok pn)
    (hne : pn ≠ "")
    (hres : create_card board data n r = .ok (.created saved card)) :
    card.project = some pn ∧
    ∃ p, p ∈ saved.projects ∧ p.name = pn ∧ card.color = some p.color ∧
      truthy p.color = true ∧
      (pn ∉ board.projects.map Project.name → ∃ k, p.color = .str (hexColor (r k))) := by
  rcases data with _ | b | x | s | elems | entries
  · exact Except.noConfusion hres
  · exact Except.noConfusion hres
  · exact Except.noConfusion hres
  · exact Except.noConfusion hres
  · exact Except.noConfusion hres
  simp only [create_card, hpn] at hres
  split at hres
  · exact CreateResult.noConfusion (Except.ok.inj hres)
  split at hres
  · exact Except.noConfusion hres
  rename_i b1 pd hep
  obtain ⟨p, hpd, hpname, hptruthy, hpmem, hpcols, hpgen⟩ :=
    ensure_project_some board pn r b1 pd (stripOrEmpty_ok_strip hpn) hne hep
  subst hpd
  simp only [hptruthy, if_true, reduceCtorEq, and_false, if_false] at hres
  split at hres
  · rename_i cols hins
    rw [Except.ok.injEq, CreateResult.created.injEq] at hres
    obtain ⟨hsv, hcd⟩ := hres
    subst hcd
    refine ⟨rfl, p, ?_, hpname, rfl, hptruthy, hpgen⟩
    rw [← hsv]
    exact hpmem
  · exact CreateResult.noConfusion (Except.ok.inj hres)

/-- Claim C8: an update whose `project` payload is present, non-null and
strips to the empty string clears the card's project reference, and the
card's color becomes the default purple unless the same update supplied an
explicit (non-null) `color`, which is then kept. -/
theorem update_card_clear_project (board : Board) (cardId : String)
    (entries : List (String × JVal)) (r : Nat → Nat) (saved : Board) (card : Card) (pv : JVal)
    (hfind : entries.find? (fun kv => kv.1 == "project") = some ("project", pv))
    (hpv : pv ≠ .null)
    (hstrip : stripOrEmpty pv = .ok "")
    (hres : update_card board cardId (.obj entries) r = .ok (.updated saved card)) :
    card.project = none ∧
    card.color = some (if JVal.get (.obj entries) "color" = .null then .str DEFAULT_CARD_COLOR
                       else JVal.get (.obj entries) "color") := by
  simp only [update_card, hfind] at hres
  rw [if_neg hpv] at hres
  split at hres
  · exact UpdateResult.noConfusion (Except.ok.inj hres)
  rename_i card0 origColId origPos cols1 hfr
  simp only [applyCardUpdates, hstrip, ne_eq, not_true, if_false] at hres
  split at hres
  · exact Except.noConfusion hres
  · exact UpdateResult.noConfusion (Except.ok.inj hres)
  rename_i cols2 hplace
  rw [Except.ok.injEq, UpdateResult.updated.injEq] at hres
  obtain ⟨hsv, hcd⟩ := hres
  subst hcd
  by_cases hcv : JVal.get (.obj entries) "color" = .null
  · rw [if_pos hcv]
    constructor
    · simp [apply_ite Card.project, ite_self, hcv]
    · simp [apply_ite Card.color, apply_ite Card.project, ite_self, hcv, DEFAULT_CARD_COLOR]
  · rw [if_neg hcv]
    constructor
    · simp [apply_ite Card.project, ite_self, hcv]
    · simp [apply_ite Card.color, apply_ite Card.project, ite_self, hcv]

/-- Witness for C8 at a concrete update supplying `project: ""` and no
color. -/
theorem update_card_clear_project_witness :
    c8CardOut.project = none ∧
    c8CardOut.color = some
      (if JVal.get (.obj [("project", .str "")]) "color" = .null then .str DEFAULT_CARD_COLOR
       else JVal.get (.obj [("project", .str "")]) "color") :=
  update_card_clear_project c8Board "a" [("project", .str "")] (fun _ => 0)
    c8Saved c8CardOut (.str "") rfl (by decide) rfl rfl

/-- Claim C9: the placement block of `update_card` (`placeCard`) realizes
the spec's placement rule `placeSpecCards`: the destination column is the
explicitly supplied one, else the card's original column; an explicit
numeric position on an explicit move inserts at that index clamped to
[0, length] (out-of-range appends), an omitted position appends, and
without an explicit target the card returns to its original (clamped)
index, the other cards keeping their relative order. -/
theorem update_card_placement (cols : List Column) (card : Card)
    (targetCol origColId : JVal) (origPos : Nat) (positionV : JVal)
    (j : Nat) (dc : Column) (cs : List Card)
    (hdest : truthy (pyOr targetCol origColId) = true)
    (hj : cols.findIdx? (fun c => c.id == pyOr targetCol origColId) = some j)
    (hdc : cols[j]? = some dc)
    (hspec : placeSpecCards dc.cards card (truthy targetCol) origPos positionV = some cs) :
    placeCard cols card targetCol origColId origPos positionV =
      .ok (some (cols.set j { dc with cards := cs })) := by
  simp only [placeCard, hdest, if_true, hj, hdc]
  rw [if_neg (fun h => Option.noConfusion h.2)]
  cases htc : truthy targetCol with
  | false =>
    simp only [placeSpecCards, htc, Bool.false_eq_true, if_false] at hspec
    rw [Option.some.injEq] at hspec
    simp only [htc, Bool.false_eq_true, if_false, hspec]
  | true =>
    rcases positionV with _ | b | k | s | elems | entries
    · simp only [placeSpecCards, htc, if_true] at hspec
      rw [Option.some.injEq] at hspec
      simp only [htc, if_true, hspec]
    · simp only [placeSpecCards, htc, if_true] at hspec
      exact Option.noConfusion hspec
    · simp only [placeSpecCards, htc, if_true] at hspec
      rw [Option.some.injEq] at hspec
      by_cases hk : k ≥ (dc.cards.length : Int)
      · have h1 : dc.cards.length ≤ (max k 0).toNat :=
          (Int.le_toNat (le_max_right k 0)).mpr (le_trans hk (le_max_left k 0))
        rw [← hspec, Nat.min_eq_right h1, List.insertIdx_length_self]
        simp only [htc, if_true, hk]
      · have h2 : (max k 0).toNat ≤ dc.cards.length := by
          by_cases hk0 : 0 ≤ k
          · rw [max_eq_left hk0]
            exact Int.toNat_le.mpr (le_of_lt (lt_of_not_le hk))
          · rw [max_eq_right (le_of_lt (lt_of_not_le hk0))]
            exact Nat.zero_le _
        rw [← hspec, Nat.min_eq_left h2]
        simp only [htc, if_true, hk, if_false]
    · simp only [placeSpecCards, htc, if_true] at hspec
      exact Option.noConfusion hspec
    · simp only [placeSpecCards, htc, if_true] at hspec
      exact Option.noConfusion hspec
    · simp only [placeSpecCards, htc, if_true] at hspec
      exact Option.noConfusion hspec

/-- Witness for C9: an explicit move to column `todo` at position 1 inserts
the card between the two existing cards. -/
theorem update_card_placement_witness :
    placeCard [c9Col] (plainCard "n") (.str "todo") (.str "todo") 0 (.num 1) =
      .ok (some ([c9Col].set 0
        { c9Col with cards := [plainCard "x", plainCard "n", plainCard "y"] })) :=
  update_card_placement [c9Col] (plainCard "n") (.str "todo") (.str "todo") 0 (.num 1)
    0 c9Col [plainCard "x", plainCard "n", plainCard "y"] rfl rfl rfl rfl

theorem existingColors_ok (ps : List Project)
    (h : ∀ p ∈ ps, truthy p.color = true → ∃ s, p.color = .str s) :
    ∃ cs, existingColors ps = .ok cs := by
  induction ps with
  | nil => exact ⟨[], rfl⟩
  | cons p rest ih =>
    rw [existingColors]
    cases hc : truthy p.color with
    | false =>
      rw [if_neg Bool.false_ne_true]
      exact ih (fun q hq h2 => h q (List.mem_cons_of_mem _ hq) h2)
    | true =>
      rw [if_pos rfl]
      obtain ⟨s, hs⟩ := h p (List.mem_cons_self _ _) hc
      obtain ⟨cs, hcs⟩ := ih (fun q hq h2 => h q (List.mem_cons_of_mem _ hq) h2)
      simp only [hs, hcs]
      exact ⟨pyLower s :: cs, rfl⟩

theorem insertCardFirstMatch_none (cols : List Column) (cid : JVal)
    (h : ∀ col ∈ cols, col.id ≠ cid) (card : Card) :
    insertCardFirstMatch cols cid card = none := by
  induction cols with
  | nil => rfl
  | cons col rest ih =>
    rw [insertCardFirstMatch, if_neg (h col (List.mem_cons_self _ _))]
    simp only [ih (fun c hc => h c (List.mem_cons_of_mem _ hc))]

/-- `_ensure_project` on a name that is new to the board appends exactly one
project with that name and a generated color, leaving the columns alone. -/
theorem ensure_project_new (board : Board) (pn : String) (r : Nat → Nat)
    (hs : pyStrip pn = pn) (hne : pn ≠ "")
    (hnew : pn ∉ board.projects.map Project.name)
    (hcolors : ∀ p ∈ board.projects, truthy p.color = true → ∃ s, p.color = .str s) :
    ∃ color, ensure_project board pn r =
      .ok ({ board with projects := board.projects ++ [{ name := pn, color := .str color }] },
           some { name := pn, color := .str color }) := by
  have hf : board.projects.find? (fun p => p.name == pn) = none :=
    List.find?_eq_none.mpr (fun p hp => by
      simp only [beq_iff_eq]
      intro hq
      exact hnew (hq ▸ List.mem_map_of_mem Project.name hp))
  obtain ⟨cs, hcs⟩ := existingColors_ok board.projects hcolors
  simp only [ensure_project, hs]
  rw [if_neg hne]
  simp only [hf, generate_unique_color, hcs]
  exact ⟨genLoop cs r 0 32, rfl⟩

/-- Claim C10: when `create_card` fails with 404 because the requested
column id matches no column, the handler returns `CreateResult.notFound`
before reaching `_save_data`, so the persisted board is unchanged; the
project that `_ensure_project` appended for the new name supplied with the
failed request exists only in the in-memory board the 404 path carries
(`created` is the only outcome whose board is saved). -/
theorem create_card_404_no_persist (board : Board) (entries : List (String × JVal))
    (n : Nat) (r : Nat → Nat) (pn : String)
    (htitle : truthy (JVal.get (.obj entries) "title") = true)
    (hpn : stripOrEmpty (JVal.get (.obj entries) "project") = .ok pn)
    (hne : pn ≠ "")
    (hnew : pn ∉ board.projects.map Project.name)
    (hcolors : ∀ p ∈ board.projects, truthy p.color = true → ∃ s, p.color = .str s)
    (hcol : ∀ col ∈ board.columns, col.id ≠ JVal.getD (.obj entries) "column" (.str "todo")) :
    ∃ b1 p, create_card board (.obj entries) n r = .ok (.notFound b1) ∧
      b1.columns = board.columns ∧ b1.projects = board.projects ++ [p] ∧ p.name = pn := by
  obtain ⟨color, hep⟩ := ensure_project_new board pn r (stripOrEmpty_ok_strip hpn) hne hnew hcolors
  refine ⟨{ board with projects := board.projects ++ [{ name := pn, color := .str color }] },
    { name := pn, color := .str color }, ?_, rfl, rfl, rfl⟩
  simp only [create_card, hpn, htitle, Bool.not_true, Bool.false_eq_true, if_false, ne_eq]
  rw [if_pos (by exact hne)]
  simp only [hep, insertCardFirstMatch_none board.columns _ hcol]

/-- Witness for C10: a request naming a new project `Backend` and the
nonexistent column `nope` yields a 404 whose in-memory board has the
project appended; no board is saved. -/
theorem create_card_404_no_persist_witness :
    ∃ b1 p,
      create_card c7Board
        (.obj [("title", .str "T"), ("project", .str "Backend"), ("column", .str "nope")])
        0 c7R = .ok (.notFound b1) ∧
      b1.columns = c7Board.columns ∧ b1.projects = c7Board.projects ++ [p] ∧
      p.name = "Backend" :=
  create_card_404_no_persist c7Board
    [("title", .str "T"), ("project", .str "Backend"), ("column", .str "nope")]
    0 c7R "Backend" rfl rfl (by decide) (by decide)
    (fun p hp h2 => absurd hp (List.not_mem_nil p)) (by decide)

/-- Witness for C7 at a concrete request creating a new project. -/
theorem create_card_forces_project_color_witness :
    c7Card.project = some "Backend" ∧
    ∃ p, p ∈ c7Saved.projects ∧ p.name = "Backend" ∧ c7Card.color = some p.color ∧
      truthy p.color = true ∧
      ("Backend" ∉ c7Board.projects.map Project.name → ∃ k, p.color = .str (hexColor (c7R k))) :=
  create_card_forces_project_color c7Board c7Data 0 c7R c7Saved c7Card "Backend"
    rfl (by decide) rfl

end Perkan
